import Mathlib

/-!
Verification of the geometric-algorithms repository (Convex_Hull.py and
Line_Intersection.py) against its natural-language specification.

Modelling conventions
- A `Point` is a pair of integer coordinates.  The GUI supplies integer pixel
  coordinates; all arithmetic in the source is exact on such inputs, and the
  spec fixes exact (tolerance-free) comparison semantics, so the integers are a
  faithful carrier.
- Python's `math.atan2` is used by the source only as a *sort key* (polar-angle
  comparisons in `graham_scan`, centroid-angle comparisons in `quickhull`).
  We embed the induced *order* on angles exactly: `atan2` values in `(-π, π]`
  are compared by quadrant class first and by the sign of a cross product
  within a class.  `angLt v w` below holds iff `atan2 v.1 v.2 < atan2 w.1 w.2`
  over the reals (first component = first argument of `atan2`).
- Python's stable sorts (`list.sort`, `sorted`) are embedded as a structural
  stable insertion sort `insSort` on a strict Boolean key comparison.
- Loops whose termination is not structural (`jarvis_march_convex_hull`'s and
  `brute_force`'s wrapping loops, `quickhull`'s recursion, `graham_scan`'s
  randomized quicksort) are embedded with an explicit fuel parameter; running
  out of fuel is a distinguished result and models divergence.
- `graham_scan`'s randomized pivot (`random.randint`) is embedded as an oracle
  `o : List Point → ℕ` giving the pivot index (mod length) for each list the
  quicksort recursion is called on; distinct recursive calls always receive
  distinct list values, so every run of the Python program is covered by some
  oracle.
- Python exceptions (`ValueError`, and the `TypeError`/`IndexError` that
  `graham_scan` hits on inputs of size 0 and 1) are modelled by `none` /
  dedicated error constructors.
-/

abbrev Point : Type := ℤ × ℤ

/-! ## Stable insertion sort, modelling Python's stable `list.sort` / `sorted`.
`lt a b` is the strict comparison "key of a < key of b"; an element is
inserted after all earlier elements whose key is not greater, which is
exactly the stable order Python's Timsort produces. -/

def ins (lt : Point → Point → Bool) (x : Point) : List Point → List Point
| [] => [x]
| y :: ys => if lt x y then x :: y :: ys else y :: ins lt x ys

def insSort (lt : Point → Point → Bool) (l : List Point) : List Point :=
  l.foldl (fun acc x => ins lt x acc) []

theorem mem_ins {lt : Point → Point → Bool} {x z : Point} :
    ∀ {l : List Point}, z ∈ ins lt x l ↔ z = x ∨ z ∈ l := by
  intro l
  induction l with
  | nil => simp [ins]
  | cons y ys ih =>
      by_cases h : lt x y = true
      · simp [ins, h]
      · simp only [ins, if_neg h, List.mem_cons, ih]
        tauto

theorem ins_perm (lt : Point → Point → Bool) (x : Point) :
    ∀ l : List Point, (ins lt x l).Perm (x :: l) := by
  intro l
  induction l with
  | nil => simp [ins]
  | cons y ys ih =>
      by_cases h : lt x y = true
      · simp [ins, h]
      · simpa [ins, h] using ((ih.cons y).trans (List.Perm.swap x y ys))

theorem insSort_perm (lt : Point → Point → Bool) (l : List Point) :
    (insSort lt l).Perm l := by
  suffices h : ∀ (l : List Point) (acc : List Point),
      (l.foldl (fun acc x => ins lt x acc) acc).Perm (acc ++ l) by
    simpa using h l []
  intro l
  induction l with
  | nil => simp
  | cons x xs ih =>
      intro acc
      have h0 : (List.foldl (fun acc x => ins lt x acc) (ins lt x acc) xs).Perm
          ((ins lt x acc) ++ xs) := ih _
      have h1 : (ins lt x acc ++ xs).Perm ((x :: acc) ++ xs) :=
        (ins_perm lt x acc).append_right xs
      have h2 : ((x :: acc) ++ xs).Perm (acc ++ x :: xs) := by
        simpa using (List.perm_middle).symm
      simpa using (h0.trans (h1.trans h2))

theorem pairwise_ins {lt : Point → Point → Bool} {S : Point → Point → Prop}
    (hf : ∀ a b, lt a b = false → S b a)
    (ht : ∀ a b, lt a b = true → S a b)
    (htr : ∀ a b c, S a b → S b c → S a c)
    {x : Point} :
    ∀ {l : List Point}, l.Pairwise S → (ins lt x l).Pairwise S := by
  intro l
  induction l with
  | nil => simp [ins]
  | cons y ys ih =>
      intro hp
      rcases List.pairwise_cons.mp hp with ⟨hy, hys⟩
      by_cases h : lt x y = true
      · rw [ins, if_pos h]
        refine List.pairwise_cons.mpr ⟨?_, hp⟩
        intro z hz
        rcases List.mem_cons.mp hz with rfl | hz
        · exact ht _ _ h
        · exact htr _ _ _ (ht _ _ h) (hy z hz)
      · rw [ins, if_neg h]
        refine List.pairwise_cons.mpr ⟨?_, ih hys⟩
        intro z hz
        rcases mem_ins.mp hz with rfl | hz
        · exact hf _ _ (by simpa using h)
        · exact hy z hz

theorem insSort_pairwise {lt : Point → Point → Bool} {S : Point → Point → Prop}
    (hf : ∀ a b, lt a b = false → S b a)
    (ht : ∀ a b, lt a b = true → S a b)
    (htr : ∀ a b c, S a b → S b c → S a c)
    (l : List Point) : (insSort lt l).Pairwise S := by
  suffices h : ∀ (l acc : List Point), acc.Pairwise S →
      (l.foldl (fun acc x => ins lt x acc) acc).Pairwise S by
    exact h l [] (by simp)
  intro l
  induction l with
  | nil => intro acc h; simpa using h
  | cons x xs ih =>
      intro acc hacc
      exact ih _ (pairwise_ins hf ht htr hacc)

/-- Embedding of Python's removal of the first occurrence of a value
(`list.remove(v)`, and `del l[l.index(v)]`). -/
def removeFirst (a : Point) : List Point → List Point
| [] => []
| x :: xs => if x = a then xs else x :: removeFirst a xs

theorem removeFirst_subset (a : Point) :
    ∀ l : List Point, removeFirst a l ⊆ l := by
  intro l
  induction l with
  | nil => intro x hx; simpa [removeFirst] using hx
  | cons x xs ih =>
      rw [removeFirst]
      split_ifs with hxa
      · exact fun z hz => List.mem_cons_of_mem x hz
      · intro z hz
        rcases List.mem_cons.mp hz with hz1 | hz2
        · rw [hz1]; exact List.mem_cons_self x xs
        · exact List.mem_cons_of_mem x (ih hz2)

theorem perm_cons_removeFirst (a : Point) :
    ∀ l : List Point, a ∈ l → l.Perm (a :: removeFirst a l) := by
  intro l
  induction l with
  | nil => intro h; exact absurd h (by simp)
  | cons x xs ih =>
      intro hmem
      rw [removeFirst]
      split_ifs with hxa
      · rw [hxa]
      · have hxs : a ∈ xs := by
          rcases List.mem_cons.mp hmem with h1 | h2
          · exact absurd h1.symm hxa
          · exact h2
        exact ((ih hxs).cons x).trans (List.Perm.swap a x (removeFirst a xs))

/-! ## Exact order of `math.atan2` values.
A vector `v : ℤ × ℤ` stands for the pair of arguments `atan2 v.1 v.2`
(`v.1` is the first, "y", argument).  `atan2` ranges over `(-π, π]`:
negative for `y < 0`, zero for `y = 0 ∧ x ≥ 0` (including `atan2 0 0 = 0`),
in `(0, π)` for `y > 0`, and `π` for `y = 0 ∧ x < 0`.  `atanClass` numbers
these four bands in increasing order of the `atan2` value; within the two
open bands the value is strictly increasing in the counter-clockwise
direction, i.e. `atan2 v < atan2 w` iff the cross product `v ×ₚ w` is
positive, and equal iff it is zero. -/

def crossP (v w : ℤ × ℤ) : ℤ := v.2 * w.1 - v.1 * w.2

def atanClass (v : ℤ × ℤ) : ℕ :=
  if v.1 < 0 then 0 else if v.1 = 0 ∧ 0 ≤ v.2 then 1 else if 0 < v.1 then 2 else 3

/-- Exact embedding of `atan2 v.1 v.2 < atan2 w.1 w.2`. -/
def angLt (v w : ℤ × ℤ) : Prop :=
  atanClass v < atanClass w ∨ (atanClass v = atanClass w ∧ 0 < crossP v w)

/-- Exact embedding of `atan2 v.1 v.2 == atan2 w.1 w.2`. -/
def angEq (v w : ℤ × ℤ) : Prop :=
  atanClass v = atanClass w ∧ crossP v w = 0

instance (v w : ℤ × ℤ) : Decidable (angLt v w) := by unfold angLt; infer_instance

instance (v w : ℤ × ℤ) : Decidable (angEq v w) := by unfold angEq; infer_instance

theorem atanClass_spec (v : ℤ × ℤ) :
    (v.1 < 0 ∧ atanClass v = 0) ∨ (v.1 = 0 ∧ 0 ≤ v.2 ∧ atanClass v = 1) ∨
    (0 < v.1 ∧ atanClass v = 2) ∨ (v.1 = 0 ∧ v.2 < 0 ∧ atanClass v = 3) := by
  unfold atanClass
  rcases lt_trichotomy v.1 0 with h | h | h
  · exact Or.inl ⟨h, if_pos h⟩
  · rcases le_or_lt 0 v.2 with h2 | h2
    · refine Or.inr (Or.inl ⟨h, h2, ?_⟩)
      rw [if_neg (by omega), if_pos ⟨h, h2⟩]
    · refine Or.inr (Or.inr (Or.inr ⟨h, h2, ?_⟩))
      rw [if_neg (by omega), if_neg (by omega), if_neg (by omega)]
  · refine Or.inr (Or.inr (Or.inl ⟨h, ?_⟩))
    rw [if_neg (by omega), if_neg (by omega), if_pos h]

theorem atanClass_zero {v : ℤ × ℤ} : atanClass v = 0 ↔ v.1 < 0 := by
  rcases atanClass_spec v with ⟨h, hc⟩ | ⟨h, h2, hc⟩ | ⟨h, hc⟩ | ⟨h, h2, hc⟩ <;>
    rw [hc] <;> constructor <;> intro hh <;> omega

theorem atanClass_one {v : ℤ × ℤ} : atanClass v = 1 ↔ v.1 = 0 ∧ 0 ≤ v.2 := by
  rcases atanClass_spec v with ⟨h, hc⟩ | ⟨h, h2, hc⟩ | ⟨h, hc⟩ | ⟨h, h2, hc⟩ <;>
    rw [hc] <;> constructor <;> intro hh <;> omega

theorem atanClass_two {v : ℤ × ℤ} : atanClass v = 2 ↔ 0 < v.1 := by
  rcases atanClass_spec v with ⟨h, hc⟩ | ⟨h, h2, hc⟩ | ⟨h, hc⟩ | ⟨h, h2, hc⟩ <;>
    rw [hc] <;> constructor <;> intro hh <;> omega

theorem atanClass_three {v : ℤ × ℤ} : atanClass v = 3 ↔ v.1 = 0 ∧ v.2 < 0 := by
  rcases atanClass_spec v with ⟨h, hc⟩ | ⟨h, h2, hc⟩ | ⟨h, hc⟩ | ⟨h, h2, hc⟩ <;>
    rw [hc] <;> constructor <;> intro hh <;> omega

theorem crossP_self (v : ℤ × ℤ) : crossP v v = 0 := by unfold crossP; ring

theorem crossP_comm (v w : ℤ × ℤ) : crossP v w = -crossP w v := by
  unfold crossP; ring

theorem crossP_eq_zero_of_fst_zero {v w : ℤ × ℤ} (hv : v.1 = 0) (hw : w.1 = 0) :
    crossP v w = 0 := by unfold crossP; rw [hv, hw]; ring

theorem atanClass_lt_four (v : ℤ × ℤ) : atanClass v < 4 := by
  rcases atanClass_spec v with ⟨h, hc⟩ | ⟨h, h2, hc⟩ | ⟨h, hc⟩ | ⟨h, h2, hc⟩ <;>
    omega

theorem angLt_irrefl (v : ℤ × ℤ) : ¬ angLt v v := by
  intro h
  rcases h with h | ⟨_, h⟩
  · omega
  · rw [crossP_self] at h; omega

theorem angLt_asymm {v w : ℤ × ℤ} (h : angLt v w) : ¬ angLt w v := by
  intro h'
  rcases h with h | ⟨he, hc⟩ <;> rcases h' with h' | ⟨he', hc'⟩
  · omega
  · omega
  · omega
  · rw [crossP_comm] at hc'; omega

theorem angEq_refl (v : ℤ × ℤ) : angEq v v := ⟨rfl, crossP_self v⟩

theorem angEq_symm {v w : ℤ × ℤ} (h : angEq v w) : angEq w v := by
  refine ⟨h.1.symm, ?_⟩
  have h2 := h.2
  rw [crossP_comm w v]; omega

theorem not_angLt_of_angEq {v w : ℤ × ℤ} (h : angEq v w) : ¬ angLt v w := by
  rintro (hlt | ⟨_, hc⟩)
  · have := h.1; omega
  · rw [h.2] at hc; omega

theorem crossP_trans_pos {v w u : ℤ × ℤ}
    (hsgn : (v.1 < 0 ∧ w.1 < 0 ∧ u.1 < 0) ∨ (0 < v.1 ∧ 0 < w.1 ∧ 0 < u.1))
    (h1 : 0 < crossP v w) (h2 : 0 < crossP w u) : 0 < crossP v u := by
  unfold crossP at h1 h2 ⊢
  rcases hsgn with ⟨hv, hw, hu⟩ | ⟨hv, hw, hu⟩
  · nlinarith [mul_pos (show (0:ℤ) < -u.1 by omega) h1,
      mul_pos (show (0:ℤ) < -v.1 by omega) h2]
  · nlinarith [mul_pos hu h1, mul_pos hv h2]

theorem crossP_trans_zero {v w u : ℤ × ℤ}
    (hw : w.1 ≠ 0) (h1 : crossP v w = 0) (h2 : crossP w u = 0) :
    crossP v u = 0 := by
  unfold crossP at h1 h2 ⊢
  have h3 : w.1 * (v.2 * u.1 - v.1 * u.2) = 0 := by
    linear_combination u.1 * h1 + v.1 * h2
  rcases mul_eq_zero.mp h3 with h | h
  · omega
  · exact h

theorem crossP_pos_eq_right {v w u : ℤ × ℤ}
    (hsgn : (v.1 < 0 ∧ w.1 < 0 ∧ u.1 < 0) ∨ (0 < v.1 ∧ 0 < w.1 ∧ 0 < u.1))
    (h1 : 0 < crossP v w) (h2 : crossP w u = 0) : 0 < crossP v u := by
  unfold crossP at h1 h2 ⊢
  rcases hsgn with ⟨hv, hw, hu⟩ | ⟨hv, hw, hu⟩
  · have h3 : 0 < (-u.1) * (v.2 * w.1 - v.1 * w.2) := mul_pos (by omega) h1
    nlinarith
  · have h3 : 0 < u.1 * (v.2 * w.1 - v.1 * w.2) := mul_pos hu h1
    nlinarith

theorem crossP_pos_eq_left {v w u : ℤ × ℤ}
    (hsgn : (v.1 < 0 ∧ w.1 < 0 ∧ u.1 < 0) ∨ (0 < v.1 ∧ 0 < w.1 ∧ 0 < u.1))
    (h1 : crossP v w = 0) (h2 : 0 < crossP w u) : 0 < crossP v u := by
  unfold crossP at h1 h2 ⊢
  rcases hsgn with ⟨hv, hw, hu⟩ | ⟨hv, hw, hu⟩
  · have h3 : 0 < (-v.1) * (w.2 * u.1 - w.1 * u.2) := mul_pos (by omega) h2
    nlinarith
  · have h3 : 0 < v.1 * (w.2 * u.1 - w.1 * u.2) := mul_pos hv h2
    nlinarith

/-- Same-class triples are either in an axis class (1 or 3) or share a strict
sign on the first coordinate. -/
theorem class_trichotomy_signs {v w u : ℤ × ℤ}
    (hvw : atanClass v = atanClass w) (hwu : atanClass w = atanClass u) :
    (atanClass v = 1) ∨ (atanClass v = 3) ∨
    (v.1 < 0 ∧ w.1 < 0 ∧ u.1 < 0) ∨ (0 < v.1 ∧ 0 < w.1 ∧ 0 < u.1) := by
  have h4 := atanClass_lt_four v
  rcases atanClass_spec v with ⟨h, hc⟩ | ⟨h, h2, hc⟩ | ⟨h, hc⟩ | ⟨h, h2, hc⟩
  · refine Or.inr (Or.inr (Or.inl ?_))
    exact ⟨h, atanClass_zero.mp (by omega), atanClass_zero.mp (by omega)⟩
  · exact Or.inl hc
  · refine Or.inr (Or.inr (Or.inr ?_))
    exact ⟨h, atanClass_two.mp (by omega), atanClass_two.mp (by omega)⟩
  · exact Or.inr (Or.inl (by omega))

theorem crossP_zero_of_class13 {v w : ℤ × ℤ}
    (hvw : atanClass v = atanClass w)
    (h : atanClass v = 1 ∨ atanClass v = 3) : crossP v w = 0 := by
  rcases h with h | h
  · exact crossP_eq_zero_of_fst_zero (atanClass_one.mp h).1
      (atanClass_one.mp (by omega)).1
  · exact crossP_eq_zero_of_fst_zero (atanClass_three.mp h).1
      (atanClass_three.mp (by omega)).1

theorem angLt_trans {v w u : ℤ × ℤ} (h1 : angLt v w) (h2 : angLt w u) :
    angLt v u := by
  rcases h1 with h1 | ⟨he1, hc1⟩ <;> rcases h2 with h2 | ⟨he2, hc2⟩
  · exact Or.inl (by omega)
  · exact Or.inl (by omega)
  · exact Or.inl (by omega)
  · refine Or.inr ⟨by omega, ?_⟩
    rcases class_trichotomy_signs he1 he2 with h13 | h13 | hs | hs
    · rw [crossP_zero_of_class13 he1 (Or.inl h13)] at hc1; omega
    · rw [crossP_zero_of_class13 he1 (Or.inr h13)] at hc1; omega
    · exact crossP_trans_pos (Or.inl hs) hc1 hc2
    · exact crossP_trans_pos (Or.inr hs) hc1 hc2

theorem angEq_trans {v w u : ℤ × ℤ} (h1 : angEq v w) (h2 : angEq w u) :
    angEq v u := by
  have he1 := h1.1
  have he2 := h2.1
  refine ⟨by omega, ?_⟩
  rcases class_trichotomy_signs he1 he2 with h13 | h13 | hs | hs
  · exact crossP_zero_of_class13 (he1.trans he2) (Or.inl h13)
  · exact crossP_zero_of_class13 (he1.trans he2) (Or.inr h13)
  · exact crossP_trans_zero (by omega) h1.2 h2.2
  · exact crossP_trans_zero (by omega) h1.2 h2.2

theorem angLt_of_angLt_of_angEq {v w u : ℤ × ℤ} (h1 : angLt v w)
    (h2 : angEq w u) : angLt v u := by
  have he2 := h2.1
  rcases h1 with h1 | ⟨he1, hc1⟩
  · exact Or.inl (by omega)
  · refine Or.inr ⟨by omega, ?_⟩
    rcases class_trichotomy_signs he1 he2 with h13 | h13 | hs | hs
    · rw [crossP_zero_of_class13 he1 (Or.inl h13)] at hc1; omega
    · rw [crossP_zero_of_class13 he1 (Or.inr h13)] at hc1; omega
    · exact crossP_pos_eq_right (Or.inl hs) hc1 h2.2
    · exact crossP_pos_eq_right (Or.inr hs) hc1 h2.2

theorem angLt_of_angEq_of_angLt {v w u : ℤ × ℤ} (h1 : angEq v w)
    (h2 : angLt w u) : angLt v u := by
  have he1 := h1.1
  rcases h2 with h2 | ⟨he2, hc2⟩
  · exact Or.inl (by omega)
  · refine Or.inr ⟨by omega, ?_⟩
    rcases class_trichotomy_signs he1 he2 with h13 | h13 | hs | hs
    · have h0 : crossP w u = 0 := crossP_zero_of_class13 he2 (Or.inl (by omega))
      omega
    · have h0 : crossP w u = 0 := crossP_zero_of_class13 he2 (Or.inr (by omega))
      omega
    · exact crossP_pos_eq_left (Or.inl hs) h1.2 hc2
    · exact crossP_pos_eq_left (Or.inr hs) h1.2 hc2

theorem angLt_trichotomy (v w : ℤ × ℤ) : angLt v w ∨ angEq v w ∨ angLt w v := by
  rcases lt_trichotomy (atanClass v) (atanClass w) with h | h | h
  · exact Or.inl (Or.inl h)
  · rcases class_trichotomy_signs h (h.symm) with h13 | h13 | hs | hs
    · exact Or.inr (Or.inl ⟨h, crossP_zero_of_class13 h (Or.inl h13)⟩)
    · exact Or.inr (Or.inl ⟨h, crossP_zero_of_class13 h (Or.inr h13)⟩)
    all_goals {
      rcases lt_trichotomy 0 (crossP v w) with hc | hc | hc
      · exact Or.inl (Or.inr ⟨h, hc⟩)
      · exact Or.inr (Or.inl ⟨h, hc.symm⟩)
      · refine Or.inr (Or.inr (Or.inr ⟨h.symm, ?_⟩))
        rw [crossP_comm] at hc; omega }
  · exact Or.inr (Or.inr (Or.inl h))

/-- Two vectors with equal `atan2` value and equal squared norm are equal.
Consequently two points with the same polar angle and the same squared
distance from the anchor coincide. -/
theorem eq_of_angEq_of_normSq_eq {v w : ℤ × ℤ} (h : angEq v w)
    (hn : v.1 * v.1 + v.2 * v.2 = w.1 * w.1 + w.2 * w.2) : v = w := by
  have hc2 : v.2 * w.1 - v.1 * w.2 = 0 := by
    have := h.2; unfold crossP at this; omega
  have hcls := h.1
  rcases atanClass_spec v with ⟨h1, hc⟩ | ⟨h1, h2, hc⟩ | ⟨h1, hc⟩ | ⟨h1, h2, hc⟩
  · -- both in the open lower band: first coordinates strictly negative
    have hw1 : w.1 < 0 := atanClass_zero.mp (by omega)
    have key : (v.1 * v.1 + v.2 * v.2) * (w.1 * w.1 - v.1 * v.1) = 0 := by
      linear_combination (v.2 * w.1 + w.2 * v.1) * hc2 - v.1 * v.1 * hn
    have hS : 0 < v.1 * v.1 + v.2 * v.2 := by nlinarith
    have h3 : (w.1 - v.1) * (w.1 + v.1) = 0 := by
      rcases mul_eq_zero.mp key with hk | hk
      · omega
      · linear_combination hk
    have hy : w.1 = v.1 := by
      rcases mul_eq_zero.mp h3 with hk | hk <;> omega
    have hx : v.2 = w.2 := by
      have h4 : v.1 * (v.2 - w.2) = 0 := by linear_combination hc2 - v.2 * hy
      rcases mul_eq_zero.mp h4 with hk | hk <;> omega
    exact Prod.ext (by omega) hx
  · -- both on the closed non-negative x-axis: second coordinates ≥ 0
    have hw : w.1 = 0 ∧ 0 ≤ w.2 := atanClass_one.mp (by omega)
    have hn2 : v.2 * v.2 = w.2 * w.2 := by
      rw [h1, hw.1] at hn; linarith
    have h3 : (v.2 - w.2) * (v.2 + w.2) = 0 := by linear_combination hn2
    have : v.2 = w.2 := by
      rcases mul_eq_zero.mp h3 with hk | hk <;> omega
    exact Prod.ext (by omega) this
  · -- both in the open upper band: first coordinates strictly positive
    have hw1 : 0 < w.1 := atanClass_two.mp (by omega)
    have key : (v.1 * v.1 + v.2 * v.2) * (w.1 * w.1 - v.1 * v.1) = 0 := by
      linear_combination (v.2 * w.1 + w.2 * v.1) * hc2 - v.1 * v.1 * hn
    have hS : 0 < v.1 * v.1 + v.2 * v.2 := by nlinarith
    have h3 : (w.1 - v.1) * (w.1 + v.1) = 0 := by
      rcases mul_eq_zero.mp key with hk | hk
      · omega
      · linear_combination hk
    have hy : w.1 = v.1 := by
      rcases mul_eq_zero.mp h3 with hk | hk <;> omega
    have hx : v.2 = w.2 := by
      have h4 : v.1 * (v.2 - w.2) = 0 := by linear_combination hc2 - v.2 * hy
      rcases mul_eq_zero.mp h4 with hk | hk <;> omega
    exact Prod.ext (by omega) hx
  · -- both on the open negative x-axis: second coordinates < 0
    have hw : w.1 = 0 ∧ w.2 < 0 := atanClass_three.mp (by omega)
    have hn2 : v.2 * v.2 = w.2 * w.2 := by
      rw [h1, hw.1] at hn; linarith
    have h3 : (v.2 - w.2) * (v.2 + w.2) = 0 := by linear_combination hn2
    have : v.2 = w.2 := by
      rcases mul_eq_zero.mp h3 with hk | hk <;> omega
    exact Prod.ext (by omega) this

/-! ## Embedding of `Line_Intersection.py` (module-level functions). -/

namespace Line_Intersection

/-- Embedding of the nested `ccw` of `do_intersect_ccw`. -/
def ccw (A B C : Point) : ℤ :=
  let val := (B.2 - A.2) * (C.1 - B.1) - (B.1 - A.1) * (C.2 - B.2)
  if val = 0 then 0 else if val > 0 then 1 else -1

/-- Embedding of the collinear-overlap test of `do_intersect_ccw`, which only
looks at x-coordinates. -/
def x_overlap (A B C D : Point) : Prop :=
  (min A.1 B.1 ≤ C.1 ∧ C.1 ≤ max A.1 B.1) ∨
  (min A.1 B.1 ≤ D.1 ∧ D.1 ≤ max A.1 B.1) ∨
  (min C.1 D.1 ≤ A.1 ∧ A.1 ≤ max C.1 D.1) ∨
  (min C.1 D.1 ≤ B.1 ∧ B.1 ≤ max C.1 D.1)

instance (A B C D : Point) : Decidable (x_overlap A B C D) := by
  unfold x_overlap; infer_instance

/-- Embedding of `do_intersect_ccw`. -/
def do_intersect_ccw (A B C D : Point) : Bool :=
  let orientation1 := ccw A B C
  let orientation2 := ccw A B D
  let orientation3 := ccw C D A
  let orientation4 := ccw C D B
  if orientation1 ≠ orientation2 ∧ orientation3 ≠ orientation4 then true
  else if orientation1 = orientation2 ∧ orientation2 = orientation3 ∧
      orientation3 = 0 then
    decide (x_overlap A B C D)
  else false

/-- Embedding of the nested `direction` of `vecotr_cross_product`. -/
def direction (p1 p2 p3 : Point) : ℤ :=
  (p2.1 - p1.1) * (p3.2 - p1.2) - (p2.2 - p1.2) * (p3.1 - p1.1)

/-- Embedding of the nested `on_segment` of `vecotr_cross_product`. -/
def on_segment (p q r : Point) : Prop :=
  min p.1 r.1 ≤ q.1 ∧ q.1 ≤ max p.1 r.1 ∧ min p.2 r.2 ≤ q.2 ∧ q.2 ≤ max p.2 r.2

instance (p q r : Point) : Decidable (on_segment p q r) := by
  unfold on_segment; infer_instance

/-- Embedding of `vecotr_cross_product` (name as in the source). -/
def vecotr_cross_product (p1 p2 p3 p4 : Point) : Bool :=
  let d1 := direction p3 p4 p1
  let d2 := direction p3 p4 p2
  let d3 := direction p1 p2 p3
  let d4 := direction p1 p2 p4
  if ((d1 > 0 ∧ d2 < 0) ∨ (d1 < 0 ∧ d2 > 0)) ∧
      ((d3 > 0 ∧ d4 < 0) ∨ (d3 < 0 ∧ d4 > 0)) then true
  else if d1 = 0 ∧ on_segment p3 p1 p4 then true
  else if d2 = 0 ∧ on_segment p3 p2 p4 then true
  else if d3 = 0 ∧ on_segment p1 p3 p2 then true
  else if d4 = 0 ∧ on_segment p1 p4 p2 then true
  else false

/-- Embedding of the nested `calculate_determinant` of `line_sweep`. -/
def calculate_determinant (point_1 point_2 point_3 : Point) : ℤ :=
  point_1.1 * point_2.2 + point_1.2 * point_3.1 + point_2.1 * point_3.2 -
  point_3.1 * point_2.2 - point_3.2 * point_1.1 - point_2.1 * point_1.2

/-- Embedding of `line_sweep` (whose body is the nested `intersect`). -/
def line_sweep (p1 p2 p3 p4 : Point) : Bool :=
  if max p1.1 p2.1 < min p3.1 p4.1 ∨ min p1.1 p2.1 > max p3.1 p4.1 then false
  else if max p1.2 p2.2 < min p3.2 p4.2 ∨ min p1.2 p2.2 > max p3.2 p4.2 then
    false
  else if calculate_determinant p1 p3 p4 * calculate_determinant p2 p3 p4 < 0 ∧
      calculate_determinant p3 p1 p2 * calculate_determinant p4 p1 p2 < 0 then
    true
  else false

end Line_Intersection

/-! ## Embedding of `Convex_Hull.py` (the five hull algorithms).
`self.points` is the input list; each algorithm is a function of it. -/

namespace Convex_Hull

/-! ### `graham_scan` -/

namespace graham

/-- Argument pair `(y_span, x_span)` of the `atan2` call in the nested
`polar_angle` (with `p1` the anchor). -/
def vec (anchor p0 : Point) : ℤ × ℤ := (p0.2 - anchor.2, p0.1 - anchor.1)

/-- Embedding of the nested `distance` (squared distance to the anchor). -/
def distance (anchor p0 : Point) : ℤ :=
  (p0.2 - anchor.2) * (p0.2 - anchor.2) + (p0.1 - anchor.1) * (p0.1 - anchor.1)

/-- One step of the anchor-selection loop of `graham_scan` (the two
consecutive `if`s, the second reading the possibly updated index). -/
def anchor_step (best : Point) (p : Point) : Point :=
  let b1 := if p.2 < best.2 then p else best
  if p.2 = b1.2 ∧ p.1 < b1.1 then p else b1

/-- Embedding of the anchor-selection loop.  On the empty list the Python
code leaves `min_idx = None` and `self.points[None]` raises; callers
guard that case, so the default value is never observed. -/
def anchorOf : List Point → Point
| [] => (0, 0)
| p :: rest => (p :: rest).foldl anchor_step p

/-- Test `pt_ang < piv_ang` of the `quicksort` partition loop. -/
def pSmaller (anchor piv pt : Point) : Bool :=
  decide (angLt (vec anchor pt) (vec anchor piv))

/-- Test `pt_ang == piv_ang` of the partition loop (reached only when the
first test failed, as in the `elif`). -/
def pEqual (anchor piv pt : Point) : Bool :=
  !pSmaller anchor piv pt && decide (angEq (vec anchor pt) (vec anchor piv))

/-- The `else` branch of the partition loop. -/
def pLarger (anchor piv pt : Point) : Bool :=
  !pSmaller anchor piv pt && !decide (angEq (vec anchor pt) (vec anchor piv))

/-- Strict squared-distance comparison, the key of `sorted(equal, key=distance)`. -/
def distLt (anchor p q : Point) : Bool :=
  decide (distance anchor p < distance anchor q)

/-- Embedding of the nested randomized `quicksort`, with the pivot choice
`random.randint(0, len(a)-1)` supplied by the oracle `o` (taken mod the
length, so every run of the Python code corresponds to some oracle) and a
fuel parameter for the non-structural recursion (`fuel ≥ a.length` always
suffices, and the top-level call has exactly that much). -/
def quicksortF (anchor : Point) (o : List Point → ℕ) :
    ℕ → List Point → List Point
| 0, a => a
| fuel + 1, a =>
  if a.length ≤ 1 then a
  else
    let piv := a.getD (o a % a.length) (0, 0)
    quicksortF anchor o fuel (a.filter (pSmaller anchor piv)) ++
      insSort (distLt anchor) (a.filter (pEqual anchor piv)) ++
      quicksortF anchor o fuel (a.filter (pLarger anchor piv))

/-- Embedding of the nested `det` of `graham_scan`. -/
def det (p1 p2 p3 : Point) : ℤ :=
  (p2.1 - p1.1) * (p3.2 - p1.2) - (p2.2 - p1.2) * (p3.1 - p1.1)

/-- Embedding of the backtracking `while` loop, on the reversed hull
(head = top of the stack `hull[-1]`). -/
def popWhile (s : Point) : List Point → List Point
| a :: b :: rest => if det b a s ≤ 0 then popWhile s (b :: rest) else a :: b :: rest
| l => l

end graham

/-- Embedding of `graham_scan`.  `none` models the exceptions the Python
code raises: a `TypeError` on the empty list (`min_idx` stays `None`) and
an `IndexError` on singletons (after `del`, `sorted_pts[0]` is out of
range — `quicksort` returns the input list itself when `len(a) <= 1`, so
the `del` empties it). -/
def graham_scan (o : List Point → ℕ) (pts : List Point) : Option (List Point) :=
  match pts with
  | [] => none
  | _ :: _ =>
    let anchor := graham.anchorOf pts
    let sorted_pts := removeFirst anchor (graham.quicksortF anchor o pts.length pts)
    match sorted_pts with
    | [] => none
    | s0 :: rest =>
      some ((rest.foldl (fun hull s => s :: graham.popWhile s hull) [s0, anchor]).reverse)

/-! ### `jarvis_march_convex_hull` -/

/-- Result type for the fuel-based wrapping loops: `err` models the
`ValueError` raised on fewer than 3 points, `fuelOut` models a loop that
has not terminated within the given fuel. -/
inductive HullResult where
| err : HullResult
| fuelOut : HullResult
| out : List Point → HullResult
deriving DecidableEq

namespace jarvis_march

/-- Embedding of the nested `orientation` (0 collinear, 1 clockwise,
-1 counterclockwise). -/
def orientation (p q r : Point) : ℤ :=
  let val := (q.2 - p.2) * (r.1 - q.1) - (q.1 - p.1) * (r.2 - q.2)
  if val = 0 then 0 else if val > 0 then 1 else -1

/-- Embedding of `min(self.points, key=lambda p: (p[1], p[0]))` (Python's
`min` keeps the first occurrence of the minimum). -/
def minYX : List Point → Point
| [] => (0, 0)
| p :: rest =>
  rest.foldl (fun best q =>
    if q.2 < best.2 ∨ (q.2 = best.2 ∧ q.1 < best.1) then q else best) p

/-- Embedding of the inner `for i in range(1, n)` endpoint-selection scan. -/
def sel (pts : List Point) (pivot : Point) : Point :=
  match pts with
  | [] => (0, 0)
  | p0 :: rest =>
    rest.foldl (fun e r =>
      if e = pivot ∨ orientation pivot e r = -1 then r else e) p0

/-- Embedding of the outer `while True` wrapping loop. -/
def go (pts : List Point) (h0 : Point) : ℕ → Point → List Point → Option (List Point)
| 0, _, _ => none
| fuel + 1, pivot, acc =>
  let acc' := acc ++ [pivot]
  let e := sel pts pivot
  if e = h0 then some acc' else go pts h0 fuel e acc'

end jarvis_march

/-- Embedding of `jarvis_march_convex_hull` with explicit fuel for the
`while True` loop. -/
def jarvis_march_convex_hull (fuel : ℕ) (pts : List Point) : HullResult :=
  if pts.length < 3 then HullResult.err
  else
    let pivot := jarvis_march.minYX pts
    match jarvis_march.go pts pivot fuel pivot [] with
    | none => HullResult.fuelOut
    | some h => HullResult.out h

/-! ### `quickhull` -/

namespace quickhull

/-- Embedding of the nested `calculate_determinant` of `quickhull`. -/
def calculate_determinant (point_1 point_2 point_3 : Point) : ℤ :=
  point_1.1 * point_2.2 + point_1.2 * point_3.1 + point_2.1 * point_3.2 -
  point_3.1 * point_2.2 - point_3.2 * point_1.1 - point_2.1 * point_1.2

/-- Embedding of `find_min_and_max` (non-strict comparisons, so ties keep
the last occurrence). -/
def find_min_and_max : List Point → Point × Point
| [] => ((0, 0), (0, 0))
| p0 :: rest =>
  (p0 :: rest).foldl (fun mm p =>
    (if p.1 ≤ mm.1.1 then p else mm.1, if p.1 ≥ mm.2.1 then p else mm.2))
    (p0, p0)

/-- Embedding of `calc_line_dist`. -/
def calc_line_dist (min_absis max_absis point : Point) : ℤ :=
  |(point.2 - min_absis.2) * (max_absis.1 - min_absis.1) -
   (max_absis.2 - min_absis.2) * (point.1 - min_absis.1)|

/-- Embedding of `divide_side` (left and right partitions; boundary points
and points with determinant 0 fall in neither). -/
def divide_side (points : List Point) (min_absis max_absis : Point) :
    List Point × List Point :=
  (points.filter (fun p => decide (p ≠ min_absis ∧ p ≠ max_absis ∧
      calculate_determinant min_absis max_absis p > 0)),
   points.filter (fun p => decide (p ≠ min_absis ∧ p ≠ max_absis ∧
      calculate_determinant min_absis max_absis p < 0)))

/-- Embedding of `find_max_distance` (`index_of_max` starts at 0 and only a
strictly larger distance moves it). -/
def find_max_distance (points : List Point) (min_absis max_absis : Point) :
    Point :=
  match points with
  | [] => (0, 0)
  | p0 :: _ =>
    (points.foldl (fun best p =>
      if calc_line_dist min_absis max_absis p > best.2
      then (p, calc_line_dist min_absis max_absis p) else best) (p0, 0)).1

/-- Embedding of `quick_hull_left`; the returned list is the sequence of
points the call appends to `list_of_hull`, in append order. -/
def quick_hull_left : ℕ → List Point → Point → Point → List Point
| 0, _, _, _ => []
| fuel + 1, points, min_absis, max_absis =>
  if points = [] then []
  else
    let max_point := find_max_distance points min_absis max_absis
    let rest := removeFirst max_point points
    let first_side := (divide_side rest min_absis max_point).1
    let second_side := (divide_side rest max_point max_absis).1
    max_point :: (quick_hull_left fuel first_side min_absis max_point ++
      quick_hull_left fuel second_side max_point max_absis)

/-- Embedding of `quick_hull_right` (mirror image using the right
partitions). -/
def quick_hull_right : ℕ → List Point → Point → Point → List Point
| 0, _, _, _ => []
| fuel + 1, points, min_absis, max_absis =>
  if points = [] then []
  else
    let max_point := find_max_distance points min_absis max_absis
    let rest := removeFirst max_point points
    let first_side := (divide_side rest min_absis max_point).2
    let second_side := (divide_side rest max_point max_absis).2
    max_point :: (quick_hull_right fuel first_side min_absis max_point ++
      quick_hull_right fuel second_side max_point max_absis)

/-- Contents of `list_of_hull` after the two recursive sweeps, in append
order (`[min_absis, max_absis]`, then the left sweep, then the right). -/
def hull_points (fuel : ℕ) (pts : List Point) : List Point :=
  let mm := find_min_and_max pts
  let lr := divide_side pts mm.1 mm.2
  mm.1 :: mm.2 :: (quick_hull_left fuel lr.1 mm.1 mm.2 ++
    quick_hull_right fuel lr.2 mm.1 mm.2)

/-- Scaled direction vector of `point` as seen from the centroid of the
hull points, presented as the `atan2` argument pair
`(point[0] - central_x, point[1] - central_y)` of the source's sort key.
With `n` the number of hull points and `(sx, sy)` their coordinate sums,
the source's float pair is this integer pair divided by `n > 0`, and
`atan2` is invariant under scaling both arguments by `n`, so comparing
these integer vectors with `angLt` reproduces the source's key order
exactly. -/
def key_vec (n sx sy : ℤ) (point : Point) : ℤ × ℤ :=
  (n * point.1 - sx, n * point.2 - sy)

/-- Embedding of `list_of_hull.sort(key=...)`: the hull points sorted by
angle around their centroid. -/
def sorted_hull (fuel : ℕ) (pts : List Point) : List Point :=
  let loh := hull_points fuel pts
  let n := (loh.length : ℤ)
  let sx := (loh.map Prod.fst).sum
  let sy := (loh.map Prod.snd).sum
  insSort (fun p q => decide (angLt (key_vec n sx sy p) (key_vec n sx sy q))) loh

/-- Embedding of the final edge-building loop of `quickhull`: element `i`
is the pair `[l[i], l[i+1]]`, the last wrapping back to `l[0]`. -/
def toEdges (l : List Point) : List (Point × Point) :=
  (List.range l.length).map (fun i =>
    (l.getD i (0, 0),
     if i = l.length - 1 then l.getD 0 (0, 0) else l.getD (i + 1) (0, 0)))

end quickhull

/-- Embedding of `quickhull`.  Inputs of length ≤ 1 are returned unchanged
(a bare point list); otherwise the result is the edge list. -/
def quickhull (fuel : ℕ) (pts : List Point) :
    List Point ⊕ List (Point × Point) :=
  if pts.length ≤ 1 then Sum.inl pts
  else Sum.inr (quickhull.toEdges (quickhull.sorted_hull fuel pts))

/-! ### `brute_force` -/

namespace brute_force

/-- Embedding of the nested `orientation` (0 collinear, 1 clockwise,
2 counterclockwise). -/
def orientation (p q r : Point) : ℤ :=
  let val := (q.2 - p.2) * (r.1 - q.1) - (q.1 - p.1) * (r.2 - q.2)
  if val = 0 then 0 else if val > 0 then 1 else 2

/-- Index access `points[i]`; all indices used stay below the length. -/
def g (pts : List Point) (i : ℕ) : Point := pts.getD i (0, 0)

/-- Embedding of the leftmost-point loop (`for i in range(1, n)`, strict
comparison, so ties keep the first occurrence). -/
def leftmost (pts : List Point) : ℕ :=
  (List.range' 1 (pts.length - 1)).foldl
    (fun l i => if (g pts i).1 < (g pts l).1 then i else l) 0

/-- Embedding of the inner `for r in range(n)` scan selecting the next
candidate index `q`, starting from `(p + 1) % n`. -/
def selIdx (pts : List Point) (p : ℕ) : ℕ :=
  (List.range pts.length).foldl
    (fun q r => if orientation (g pts p) (g pts q) (g pts r) = 2 then r else q)
    ((p + 1) % pts.length)

/-- Embedding of the outer `while True` wrapping loop. -/
def go (pts : List Point) (l : ℕ) : ℕ → ℕ → List Point → Option (List Point)
| 0, _, _ => none
| fuel + 1, p, acc =>
  let acc' := acc ++ [g pts p]
  let q := selIdx pts p
  if q = l then some acc' else go pts l fuel q acc'

end brute_force

/-- Embedding of `brute_force` with explicit fuel for the `while True`
loop; `n < 3` returns the empty list (no exception). -/
def brute_force (fuel : ℕ) (pts : List Point) : Option (List Point) :=
  if pts.length < 3 then some []
  else brute_force.go pts (brute_force.leftmost pts) fuel
    (brute_force.leftmost pts) []

/-! ### `andrews_monotone_chain` -/

namespace monotone

/-- Embedding of the nested `orientation` (same formula as Jarvis March's;
0 collinear, 1 clockwise, -1 counterclockwise). -/
def orientation (p q r : Point) : ℤ :=
  let val := (q.2 - p.2) * (r.1 - q.1) - (q.1 - p.1) * (r.2 - q.2)
  if val = 0 then 0 else if val > 0 then 1 else -1

/-- Python's default tuple comparison used by `sorted(points)`:
lexicographic on (x, y). -/
def lexLt (a b : Point) : Prop := a.1 < b.1 ∨ (a.1 = b.1 ∧ a.2 < b.2)

instance (a b : Point) : Decidable (lexLt a b) := by
  unfold lexLt; infer_instance

/-- Embedding of the popping `while` loop of a chain build, on the reversed
chain (head = `chain[-1]`). -/
def popWhile (p : Point) : List Point → List Point
| a :: b :: rest =>
  if orientation b a p ≠ -1 then popWhile p (b :: rest) else a :: b :: rest
| l => l

/-- Embedding of one chain-building `for` loop. -/
def buildChain (l : List Point) : List Point :=
  (l.foldl (fun chain p => p :: popWhile p chain) []).reverse

end monotone

/-- Embedding of `andrews_monotone_chain`; `none` models the `ValueError`
raised on fewer than 3 points. -/
def andrews_monotone_chain (pts : List Point) : Option (List Point) :=
  if pts.length < 3 then none
  else
    let points := insSort (fun a b => decide (monotone.lexLt a b)) pts
    let lower_hull := monotone.buildChain points
    let upper_hull := monotone.buildChain points.reverse
    some (lower_hull.dropLast ++ upper_hull.dropLast)

/-! ### Frame behaviour: the caller's `self.points` after each call.
Each algorithm reads `self.points` and mutates only lists it freshly
constructs: `graham_scan`'s partition quicksort builds new lists from
`smaller`/`equal`/`larger` (and `sorted` copies), `andrews_monotone_chain`
sorts a `sorted(points)` copy, `quickhull`'s `remove` operates on the
fresh filter results of `divide_side`, and `jarvis_march_convex_hull` and
`brute_force` never mutate at all.  The single exception is `quicksort`'s
base case `if len(a) <= 1: return a`, which returns the *input list
object*; for inputs of size 1 the subsequent
`del sorted_pts[sorted_pts.index(anchor)]` therefore empties the caller's
list (before the `IndexError`).  These definitions give the content of the
caller's list after each call returns or raises. -/

/-- Condition under which the nested `quicksort` returns its argument
object itself (`if len(a) <= 1: return a`). -/
def quicksort_aliases (a : List Point) : Bool := a.length ≤ 1

/-- Caller's list after `graham_scan`: mutated only through the alias when
the top-level `quicksort` call returns `self.points` itself and the `del`
then erases the anchor from it (only reachable for singletons; the empty
list raises before the `del`). -/
def graham_scan_inputAfter (pts : List Point) : List Point :=
  match pts with
  | [] => pts
  | _ :: _ =>
    if quicksort_aliases pts then removeFirst (graham.anchorOf pts) pts else pts

/-- Caller's list after `jarvis_march_convex_hull` (no mutation). -/
def jarvis_march_inputAfter (pts : List Point) : List Point := pts

/-- Caller's list after `quickhull` (mutations hit fresh lists only). -/
def quickhull_inputAfter (pts : List Point) : List Point := pts

/-- Caller's list after `brute_force` (no mutation). -/
def brute_force_inputAfter (pts : List Point) : List Point := pts

/-- Caller's list after `andrews_monotone_chain` (sorts a copy). -/
def andrews_monotone_chain_inputAfter (pts : List Point) : List Point := pts

end Convex_Hull

/-- Constant pivot oracle (always the first element); used to instantiate
`graham_scan` at concrete inputs. -/
def oracle0 : List Point → ℕ := fun _ => 0

/-- A second concrete pivot oracle. -/
def oracle1 : List Point → ℕ := fun a => a.length - 1

/-! ## Generic helper lemmas -/

theorem getD_mem_of_lt {l : List Point} {i : ℕ} (d : Point)
    (h : i < l.length) : l.getD i d ∈ l := by
  rw [List.getD_eq_getElem?_getD, List.getElem?_eq_getElem h]
  exact List.getElem_mem h

/-- A fold whose step keeps the tracked component or replaces it with the
scanned element ends with the initial component or a list element. -/
theorem foldl_pick {α β : Type} (g : β → α) (f : β → α → β)
    (hf : ∀ b x, g (f b x) = g b ∨ g (f b x) = x) :
    ∀ (l : List α) (init : β),
      g (l.foldl f init) = g init ∨ g (l.foldl f init) ∈ l := by
  intro l
  induction l with
  | nil => intro init; exact Or.inl rfl
  | cons x xs ih =>
      intro init
      rcases ih (f init x) with h | h
      · rcases hf init x with h2 | h2
        · exact Or.inl (by rw [List.foldl_cons, h, h2])
        · exact Or.inr (by rw [List.foldl_cons, h, h2]; exact List.mem_cons_self x xs)
      · exact Or.inr (List.mem_cons_of_mem x h)

/-- Variant of `foldl_pick` for plain element folds. -/
theorem foldl_pick_id {α : Type} (f : α → α → α)
    (hf : ∀ b x, f b x = b ∨ f b x = x) (l : List α) (init : α) :
    l.foldl f init = init ∨ l.foldl f init ∈ l :=
  foldl_pick (fun b => b) f hf l init

namespace Convex_Hull

/-! ## Jarvis March: the wrapping loop does not terminate on
`[(1, 0), (2, 0), (0, 0)]`.
The selection scan from pivot `(1, 0)` yields `(2, 0)` and from `(2, 0)`
yields `(1, 0)`; neither equals the starting hull point `(0, 0)`, so the
`while True` loop alternates between the two pivots forever. -/

/-- The input (three collinear points in this order) on which
`jarvis_march_convex_hull` loops forever. -/
def jarvisLoopInput : List Point := [(1, 0), (2, 0), (0, 0)]

theorem jarvis_sel_cycle_a : jarvis_march.sel jarvisLoopInput (1, 0) = (2, 0) := by
  decide

theorem jarvis_sel_cycle_b : jarvis_march.sel jarvisLoopInput (2, 0) = (1, 0) := by
  decide

theorem jarvis_sel_start : jarvis_march.sel jarvisLoopInput (0, 0) = (1, 0) := by
  decide

theorem jarvis_go_cycle : ∀ fuel : ℕ,
    (∀ acc, jarvis_march.go jarvisLoopInput (0, 0) fuel (1, 0) acc = none) ∧
    (∀ acc, jarvis_march.go jarvisLoopInput (0, 0) fuel (2, 0) acc = none) := by
  intro fuel
  induction fuel with
  | zero => exact ⟨fun _ => rfl, fun _ => rfl⟩
  | succ n ih =>
      constructor <;> intro acc
      · rw [jarvis_march.go]
        simp only [jarvis_sel_cycle_a]
        rw [if_neg (by decide)]
        exact ih.2 _
      · rw [jarvis_march.go]
        simp only [jarvis_sel_cycle_b]
        rw [if_neg (by decide)]
        exact ih.1 _

/-! ## Determinism of `graham_scan`'s randomized quicksort.
The nested `quicksort` partitions by the pivot's polar angle and orders the
equal-angle bucket by squared distance.  Two points with equal polar angle
and equal squared distance from the anchor are the same point, so the
(angle, squared-distance) lexicographic order is antisymmetric and any two
sorted permutations of the input coincide — the pivot oracle cannot
influence the result. -/

namespace graham

/-- The (polar angle, squared distance) lexicographic order the quicksort
establishes. -/
def sortedRel (anchor p q : Point) : Prop :=
  angLt (vec anchor p) (vec anchor q) ∨
  (angEq (vec anchor p) (vec anchor q) ∧ distance anchor p ≤ distance anchor q)

theorem distance_eq_normSq (anchor p : Point) :
    distance anchor p =
      (vec anchor p).1 * (vec anchor p).1 + (vec anchor p).2 * (vec anchor p).2 := rfl

theorem vec_injective {anchor p q : Point} (h : vec anchor p = vec anchor q) :
    p = q := by
  unfold vec at h
  have h1 := congrArg Prod.fst h
  have h2 := congrArg Prod.snd h
  simp only at h1 h2
  exact Prod.ext (by omega) (by omega)

theorem sortedRel_trans {anchor p q r : Point} (h1 : sortedRel anchor p q)
    (h2 : sortedRel anchor q r) : sortedRel anchor p r := by
  rcases h1 with h1 | ⟨h1e, h1d⟩ <;> rcases h2 with h2 | ⟨h2e, h2d⟩
  · exact Or.inl (angLt_trans h1 h2)
  · exact Or.inl (angLt_of_angLt_of_angEq h1 h2e)
  · exact Or.inl (angLt_of_angEq_of_angLt h1e h2)
  · exact Or.inr ⟨angEq_trans h1e h2e, le_trans h1d h2d⟩

theorem sortedRel_antisymm {anchor p q : Point} (h1 : sortedRel anchor p q)
    (h2 : sortedRel anchor q p) : p = q := by
  rcases h1 with h1 | ⟨h1e, h1d⟩ <;> rcases h2 with h2 | ⟨h2e, h2d⟩
  · exact absurd h2 (angLt_asymm h1)
  · exact absurd h1 (not_angLt_of_angEq (angEq_symm h2e))
  · exact absurd h2 (not_angLt_of_angEq (angEq_symm h1e))
  · refine @vec_injective anchor p q (eq_of_angEq_of_normSq_eq h1e ?_)
    rw [← distance_eq_normSq, ← distance_eq_normSq]
    omega

theorem sortedRel_total (anchor p q : Point) :
    sortedRel anchor p q ∨ sortedRel anchor q p := by
  rcases angLt_trichotomy (vec anchor p) (vec anchor q) with h | h | h
  · exact Or.inl (Or.inl h)
  · rcases le_total (distance anchor p) (distance anchor q) with hd | hd
    · exact Or.inl (Or.inr ⟨h, hd⟩)
    · exact Or.inr (Or.inr ⟨angEq_symm h, hd⟩)
  · exact Or.inr (Or.inl h)

end graham

/-- Any list is a permutation of its three-way partition by two Boolean
tests applied in sequence (modelling the `if/elif/else` of `quicksort`). -/
theorem three_filter_perm (p₁ p₂ : Point → Bool) (a : List Point) :
    a.Perm (a.filter p₁ ++ a.filter (fun x => !p₁ x && p₂ x) ++
      a.filter (fun x => !p₁ x && !p₂ x)) := by
  induction a with
  | nil => simp
  | cons x xs ih =>
      by_cases h1 : p₁ x
      · simpa [List.filter_cons, h1] using ih.cons x
      · by_cases h2 : p₂ x
        · simp only [List.filter_cons, h1, h2, Bool.false_eq_true, if_false,
            Bool.not_false, Bool.and_self, Bool.true_and, Bool.and_true,
            Bool.not_true, Bool.false_and, Bool.and_false, if_true]
          refine (ih.cons x).trans ?_
          rw [List.append_assoc, List.append_assoc]
          exact List.perm_middle.symm
        · simp only [List.filter_cons, h1, h2, Bool.false_eq_true, if_false,
            Bool.not_false, Bool.true_and, if_true]
          refine (ih.cons x).trans ?_
          exact List.perm_middle.symm

/-- The partition loop of `quicksort` splits its input into the three
filtered lists. -/
theorem partition_perm (anchor piv : Point) (a : List Point) :
    a.Perm (a.filter (graham.pSmaller anchor piv) ++
      a.filter (graham.pEqual anchor piv) ++
      a.filter (graham.pLarger anchor piv)) := by
  have h := three_filter_perm (graham.pSmaller anchor piv)
    (fun pt => decide (angEq (graham.vec anchor pt) (graham.vec anchor piv))) a
  have he : a.filter (fun x => !graham.pSmaller anchor piv x &&
      decide (angEq (graham.vec anchor x) (graham.vec anchor piv))) =
      a.filter (graham.pEqual anchor piv) :=
    List.filter_congr (fun x _ => rfl)
  have hl : a.filter (fun x => !graham.pSmaller anchor piv x &&
      !decide (angEq (graham.vec anchor x) (graham.vec anchor piv))) =
      a.filter (graham.pLarger anchor piv) :=
    List.filter_congr (fun x _ => rfl)
  rw [he, hl] at h
  exact h

theorem quicksortF_perm (anchor : Point) (o : List Point → ℕ) :
    ∀ (fuel : ℕ) (a : List Point), (graham.quicksortF anchor o fuel a).Perm a := by
  intro fuel
  induction fuel with
  | zero => intro a; exact List.Perm.refl a
  | succ n ih =>
      intro a
      rw [graham.quicksortF]
      by_cases hlen : a.length ≤ 1
      · rw [if_pos hlen]
      · rw [if_neg hlen]
        refine List.Perm.trans ?_ (partition_perm anchor
          (a.getD (o a % a.length) (0, 0)) a).symm
        exact ((ih _).append (insSort_perm _ _)).append (ih _)

/-- Unfolding lemma for the recursive case of the quicksort. -/
theorem quicksortF_succ (anchor : Point) (o : List Point → ℕ) (n : ℕ)
    (a : List Point) (h : ¬ a.length ≤ 1) :
    graham.quicksortF anchor o (n + 1) a =
      graham.quicksortF anchor o n
        (a.filter (graham.pSmaller anchor (a.getD (o a % a.length) (0, 0)))) ++
      insSort (graham.distLt anchor)
        (a.filter (graham.pEqual anchor (a.getD (o a % a.length) (0, 0)))) ++
      graham.quicksortF anchor o n
        (a.filter (graham.pLarger anchor (a.getD (o a % a.length) (0, 0)))) := by
  rw [graham.quicksortF, if_neg h]

theorem quicksortF_pairwise (anchor : Point) (o : List Point → ℕ) :
    ∀ (fuel : ℕ) (a : List Point), a.length ≤ fuel →
      (graham.quicksortF anchor o fuel a).Pairwise (graham.sortedRel anchor) := by
  intro fuel
  induction fuel with
  | zero =>
      intro a ha
      have : a = [] := List.length_eq_zero.mp (by omega)
      subst this
      exact List.Pairwise.nil
  | succ n ih =>
      intro a ha
      by_cases hlen : a.length ≤ 1
      · rw [graham.quicksortF, if_pos hlen]
        match a, hlen with
        | [], _ => exact List.Pairwise.nil
        | [x], _ => exact List.pairwise_singleton _ x
      · rw [quicksortF_succ anchor o n a hlen]
        have hpivmem : a.getD (o a % a.length) (0, 0) ∈ a :=
          getD_mem_of_lt _ (Nat.mod_lt _ (by omega))
        generalize a.getD (o a % a.length) (0, 0) = piv at hpivmem
        have hsm : (a.filter (graham.pSmaller anchor piv)).length < a.length := by
          refine List.length_filter_lt_length_iff_exists.mpr ⟨piv, hpivmem, ?_⟩
          simp only [graham.pSmaller, decide_eq_true_iff]
          exact angLt_irrefl _
        have hlg : (a.filter (graham.pLarger anchor piv)).length < a.length := by
          refine List.length_filter_lt_length_iff_exists.mpr ⟨piv, hpivmem, ?_⟩
          simp only [graham.pLarger, Bool.and_eq_true, Bool.not_eq_true',
            decide_eq_false_iff_not]
          intro hcon
          exact hcon.2 (angEq_refl _)
        have hmemS : ∀ x ∈ graham.quicksortF anchor o n
              (a.filter (graham.pSmaller anchor piv)),
            angLt (graham.vec anchor x) (graham.vec anchor piv) := by
          intro x hx
          have h1 : x ∈ a.filter (graham.pSmaller anchor piv) :=
            ((quicksortF_perm anchor o n _).mem_iff).mp hx
          have h2 := (List.mem_filter.mp h1).2
          simpa only [graham.pSmaller, decide_eq_true_iff] using h2
        have hmemE : ∀ x ∈ insSort (graham.distLt anchor)
              (a.filter (graham.pEqual anchor piv)),
            angEq (graham.vec anchor x) (graham.vec anchor piv) := by
          intro x hx
          have h1 : x ∈ a.filter (graham.pEqual anchor piv) :=
            ((insSort_perm _ _).mem_iff).mp hx
          have h2 := (List.mem_filter.mp h1).2
          simp only [graham.pEqual, Bool.and_eq_true, decide_eq_true_iff] at h2
          exact h2.2
        have hmemL : ∀ x ∈ graham.quicksortF anchor o n
              (a.filter (graham.pLarger anchor piv)),
            angLt (graham.vec anchor piv) (graham.vec anchor x) := by
          intro x hx
          have h1 : x ∈ a.filter (graham.pLarger anchor piv) :=
            ((quicksortF_perm anchor o n _).mem_iff).mp hx
          have h2 := (List.mem_filter.mp h1).2
          simp only [graham.pSmaller, graham.pLarger, Bool.and_eq_true,
            Bool.not_eq_true', decide_eq_false_iff_not] at h2
          rcases angLt_trichotomy (graham.vec anchor x) (graham.vec anchor piv)
            with h | h | h
          · exact absurd h h2.1
          · exact absurd h h2.2
          · exact h
        refine List.pairwise_append.mpr ⟨List.pairwise_append.mpr
          ⟨ih _ (by omega), ?_, ?_⟩, ih _ (by omega), ?_⟩
        · refine List.Pairwise.imp_of_mem ?_
            (insSort_pairwise
              (S := fun p q => graham.distance anchor p ≤ graham.distance anchor q)
              (fun a b hab => le_of_not_lt (of_decide_eq_false hab))
              (fun a b hab => le_of_lt (of_decide_eq_true hab))
              (fun a b c h1 h2 => le_trans h1 h2) _)
          intro x y hx hy hd
          exact Or.inr ⟨angEq_trans (hmemE x hx) (angEq_symm (hmemE y hy)), hd⟩
        · intro x hx y hy
          exact Or.inl (angLt_of_angLt_of_angEq (hmemS x hx)
            (angEq_symm (hmemE y hy)))
        · intro x hx z hz
          rcases List.mem_append.mp hx with hx | hx
          · exact Or.inl (angLt_trans (hmemS x hx) (hmemL z hz))
          · exact Or.inl (angLt_of_angEq_of_angLt (hmemE x hx) (hmemL z hz))

/-- The randomized quicksort's result does not depend on the pivot oracle. -/
theorem quicksortF_det (anchor : Point) (o₁ o₂ : List Point → ℕ)
    (a : List Point) :
    graham.quicksortF anchor o₁ a.length a =
      graham.quicksortF anchor o₂ a.length a := by
  haveI : IsAntisymm Point (graham.sortedRel anchor) :=
    ⟨fun _ _ => graham.sortedRel_antisymm⟩
  exact List.eq_of_perm_of_sorted
    ((quicksortF_perm anchor o₁ a.length a).trans
      (quicksortF_perm anchor o₂ a.length a).symm)
    (quicksortF_pairwise anchor o₁ a.length a le_rfl)
    (quicksortF_pairwise anchor o₂ a.length a le_rfl)

/-! ## Membership: every produced hull vertex comes from the input list. -/

/-- An `if` choosing between the accumulator and the scanned element. -/
theorem ite_pick {α : Type} (c : Prop) [Decidable c] (x b : α) :
    (if c then x else b) = b ∨ (if c then x else b) = x := by
  split_ifs <;> simp

/-- Variant of `foldl_pick` for folds over natural-number index lists. -/
theorem foldl_pick_nat (f : ℕ → ℕ → ℕ) (hf : ∀ b x, f b x = b ∨ f b x = x) :
    ∀ (l : List ℕ) (init : ℕ), l.foldl f init = init ∨ l.foldl f init ∈ l :=
  fun l init => foldl_pick (fun b => b) f hf l init

theorem graham_popWhile_subset (s : Point) :
    ∀ l : List Point, graham.popWhile s l ⊆ l := by
  intro l
  induction l with
  | nil => intro x hx; simpa [graham.popWhile] using hx
  | cons a t ih =>
      cases t with
      | nil => intro x hx; simpa [graham.popWhile] using hx
      | cons b rest =>
          rw [graham.popWhile]
          split_ifs with h
          · intro x hx
            exact List.mem_cons_of_mem a (ih hx)
          · exact fun x hx => hx

theorem monotone_popWhile_subset (s : Point) :
    ∀ l : List Point, monotone.popWhile s l ⊆ l := by
  intro l
  induction l with
  | nil => intro x hx; simpa [monotone.popWhile] using hx
  | cons a t ih =>
      cases t with
      | nil => intro x hx; simpa [monotone.popWhile] using hx
      | cons b rest =>
          rw [monotone.popWhile]
          split_ifs with h
          · intro x hx
            exact List.mem_cons_of_mem a (ih hx)
          · exact fun x hx => hx

/-- A scan that pushes the current element onto a popped stack only ever
holds initial-stack elements and scanned elements. -/
theorem stackFold_subset (pop : Point → List Point → List Point)
    (hpop : ∀ s l, pop s l ⊆ l) (U : List Point) :
    ∀ (rest acc : List Point), acc ⊆ U → (∀ s ∈ rest, s ∈ U) →
      (rest.foldl (fun hull s => s :: pop s hull) acc) ⊆ U := by
  intro rest
  induction rest with
  | nil => intro acc hacc _; simpa using hacc
  | cons s t ih =>
      intro acc hacc hrest
      rw [List.foldl_cons]
      refine ih _ ?_ (fun x hx => hrest _ (List.mem_cons_of_mem s hx))
      intro x hx
      rcases List.mem_cons.mp hx with hx1 | hx2
      · exact hrest x (by simp [hx1])
      · exact hacc (hpop s acc hx2)

theorem anchor_step_pick (b x : Point) :
    graham.anchor_step b x = b ∨ graham.anchor_step b x = x := by
  simp only [graham.anchor_step]
  split_ifs <;> simp

theorem anchorOf_mem (p : Point) (rest : List Point) :
    graham.anchorOf (p :: rest) ∈ p :: rest := by
  rcases foldl_pick_id graham.anchor_step anchor_step_pick (p :: rest) p with h | h
  · rw [graham.anchorOf, h]; exact List.mem_cons_self p rest
  · exact h

theorem graham_scan_subset (o : List Point → ℕ) (pts res : List Point)
    (h : graham_scan o pts = some res) : res ⊆ pts := by
  match pts with
  | [] => exact absurd h (by simp [graham_scan])
  | p :: rest =>
      rw [graham_scan] at h
      revert h
      cases hsp : removeFirst (graham.anchorOf (p :: rest))
          (graham.quicksortF (graham.anchorOf (p :: rest)) o
            (p :: rest).length (p :: rest)) with
      | nil => intro h; exact absurd h (by simp)
      | cons s0 srest =>
          intro h
          have hres : res = ((srest.foldl (fun hull s => s :: graham.popWhile s hull)
              [s0, graham.anchorOf (p :: rest)]).reverse) := by
            simpa using h.symm
          subst hres
          have hsorted : ∀ y, y ∈ s0 :: srest → y ∈ p :: rest := by
            intro y hy
            rw [← hsp] at hy
            exact (quicksortF_perm _ o _ _).subset (removeFirst_subset _ _ hy)
          intro x hx
          rw [List.mem_reverse] at hx
          refine stackFold_subset graham.popWhile graham_popWhile_subset
            (p :: rest) srest [s0, graham.anchorOf (p :: rest)] ?_ ?_ hx
          · intro y hy
            rcases List.mem_cons.mp hy with hy1 | hy2
            · refine hsorted y ?_
              rw [hy1]
              exact List.mem_cons_self s0 srest
            · have hy3 : y = graham.anchorOf (p :: rest) := by simpa using hy2
              rw [hy3]
              exact anchorOf_mem p rest
          · intro s hs
            exact hsorted _ (List.mem_cons_of_mem s0 hs)

theorem jarvis_sel_step_pick (pivot : Point) (b x r : Point) :
    (if b = pivot ∨ jarvis_march.orientation pivot b r = -1 then r else b) = b ∨
    (if b = pivot ∨ jarvis_march.orientation pivot b r = -1 then r else b) = r := by
  split_ifs <;> simp

theorem jarvis_sel_mem (p0 : Point) (rest : List Point) (pivot : Point) :
    jarvis_march.sel (p0 :: rest) pivot ∈ p0 :: rest := by
  rw [jarvis_march.sel]
  rcases foldl_pick_id
      (fun e r => if e = pivot ∨ jarvis_march.orientation pivot e r = -1 then r else e)
      (fun b x => jarvis_sel_step_pick pivot b x x) rest p0 with h | h
  · rw [h]; exact List.mem_cons_self p0 rest
  · exact List.mem_cons_of_mem p0 h

theorem minYX_mem (p : Point) (rest : List Point) :
    jarvis_march.minYX (p :: rest) ∈ p :: rest := by
  rw [jarvis_march.minYX]
  have hmem := foldl_pick_id
      (fun best q => if q.2 < best.2 ∨ (q.2 = best.2 ∧ q.1 < best.1) then q else best)
      (fun b x => ite_pick _ x b) rest p
  rcases hmem with h | h
  · rw [h]; exact List.mem_cons_self p rest
  · exact List.mem_cons_of_mem p h

theorem jarvis_go_subset (p0 : Point) (rest : List Point) (h0 : Point) :
    ∀ (fuel : ℕ) (pivot : Point) (acc res : List Point),
      pivot ∈ p0 :: rest → acc ⊆ p0 :: rest →
      jarvis_march.go (p0 :: rest) h0 fuel pivot acc = some res →
      res ⊆ p0 :: rest := by
  intro fuel
  induction fuel with
  | zero =>
      intro pivot acc res _ _ h
      exact absurd h (by simp [jarvis_march.go])
  | succ n ih =>
      intro pivot acc res hpiv hacc h
      simp only [jarvis_march.go] at h
      split_ifs at h with he
      · have hres : acc ++ [pivot] = res := by simpa using h
        intro x hx
        rw [← hres] at hx
        rcases List.mem_append.mp hx with hx | hx
        · exact hacc hx
        · have : x = pivot := by simpa using hx
          rw [this]; exact hpiv
      · refine ih _ _ _ (jarvis_sel_mem p0 rest pivot) ?_ h
        intro x hx
        rcases List.mem_append.mp hx with hx | hx
        · exact hacc hx
        · have : x = pivot := by simpa using hx
          rw [this]; exact hpiv

theorem jarvis_march_subset (fuel : ℕ) (pts res : List Point)
    (h : jarvis_march_convex_hull fuel pts = HullResult.out res) : res ⊆ pts := by
  by_cases hn : pts.length < 3
  · rw [jarvis_march_convex_hull, if_pos hn] at h
    exact absurd h (by simp)
  · simp only [jarvis_march_convex_hull, if_neg hn] at h
    match pts, hn with
    | p0 :: rest, _ =>
        revert h
        cases hgo : jarvis_march.go (p0 :: rest) (jarvis_march.minYX (p0 :: rest))
            fuel (jarvis_march.minYX (p0 :: rest)) [] with
        | none => intro h; exact absurd h (by simp)
        | some hh =>
            intro h
            have h2 : HullResult.out hh = HullResult.out res := h
            have h3 : hh = res := by
              injection h2
            rw [← h3]
            exact jarvis_go_subset p0 rest _ fuel _ [] hh
              (minYX_mem p0 rest) (by simp) hgo

theorem brute_leftmost_lt (pts : List Point) (hn : 0 < pts.length) :
    brute_force.leftmost pts < pts.length := by
  unfold brute_force.leftmost
  rcases foldl_pick_nat
      (fun l i => if (brute_force.g pts i).1 < (brute_force.g pts l).1 then i else l)
      (fun b x => ite_pick _ x b)
      (List.range' 1 (pts.length - 1)) 0 with h | h
  · rw [h]; exact hn
  · rcases List.mem_range'.mp h with ⟨i, hi, heq⟩
    omega

theorem brute_selIdx_lt (pts : List Point) (hn : 0 < pts.length) (p : ℕ) :
    brute_force.selIdx pts p < pts.length := by
  unfold brute_force.selIdx
  rcases foldl_pick_nat
      (fun q r => if brute_force.orientation (brute_force.g pts p)
        (brute_force.g pts q) (brute_force.g pts r) = 2 then r else q)
      (fun b x => ite_pick _ x b)
      (List.range pts.length) ((p + 1) % pts.length) with h | h
  · rw [h]; exact Nat.mod_lt _ hn
  · exact List.mem_range.mp h

theorem brute_go_subset (pts : List Point) (l : ℕ) :
    ∀ (fuel p : ℕ) (acc res : List Point), p < pts.length → acc ⊆ pts →
      brute_force.go pts l fuel p acc = some res → res ⊆ pts := by
  intro fuel
  induction fuel with
  | zero =>
      intro p acc res _ _ h
      exact absurd h (by simp [brute_force.go])
  | succ n ih =>
      intro p acc res hp hacc h
      simp only [brute_force.go] at h
      have hgmem : brute_force.g pts p ∈ pts := getD_mem_of_lt _ hp
      split_ifs at h with he
      · have hres : acc ++ [brute_force.g pts p] = res := by simpa using h
        intro x hx
        rw [← hres] at hx
        rcases List.mem_append.mp hx with hx | hx
        · exact hacc hx
        · have : x = brute_force.g pts p := by simpa using hx
          rw [this]; exact hgmem
      · refine ih _ _ _ (brute_selIdx_lt pts (by omega) p) ?_ h
        intro x hx
        rcases List.mem_append.mp hx with hx | hx
        · exact hacc hx
        · have : x = brute_force.g pts p := by simpa using hx
          rw [this]; exact hgmem

theorem brute_force_subset (fuel : ℕ) (pts res : List Point)
    (h : brute_force fuel pts = some res) : res ⊆ pts := by
  rw [brute_force] at h
  split_ifs at h with hn
  · have : ([] : List Point) = res := by simpa using h
    rw [← this]
    exact List.nil_subset pts
  · exact brute_go_subset pts _ fuel _ [] res
      (brute_leftmost_lt pts (by omega)) (by simp) h

theorem buildChain_subset (l : List Point) : monotone.buildChain l ⊆ l := by
  unfold monotone.buildChain
  intro x hx
  rw [List.mem_reverse] at hx
  exact stackFold_subset monotone.popWhile monotone_popWhile_subset
    l l [] (by simp) (fun s hs => hs) hx

theorem andrews_monotone_chain_subset (pts res : List Point)
    (h : andrews_monotone_chain pts = some res) : res ⊆ pts := by
  by_cases hn : pts.length < 3
  · rw [andrews_monotone_chain, if_pos hn] at h
    exact absurd h (by simp)
  · simp only [andrews_monotone_chain, if_neg hn] at h
    have hres : (monotone.buildChain
        (insSort (fun a b => decide (monotone.lexLt a b)) pts)).dropLast ++
        (monotone.buildChain
        (insSort (fun a b => decide (monotone.lexLt a b)) pts).reverse).dropLast
        = res := by simpa using h
    rw [← hres]
    intro x hx
    rcases List.mem_append.mp hx with hx | hx
    · exact (insSort_perm _ _).subset
        (buildChain_subset _ (List.dropLast_subset _ hx))
    · have h2 := buildChain_subset _ (List.dropLast_subset _ hx)
      rw [List.mem_reverse] at h2
      exact (insSort_perm _ _).subset h2

theorem find_min_and_max_mem (p0 : Point) (rest : List Point) :
    (quickhull.find_min_and_max (p0 :: rest)).1 ∈ p0 :: rest ∧
    (quickhull.find_min_and_max (p0 :: rest)).2 ∈ p0 :: rest := by
  rw [quickhull.find_min_and_max]
  constructor
  · rcases foldl_pick (fun mm : Point × Point => mm.1)
        (fun mm p => (if p.1 ≤ mm.1.1 then p else mm.1,
          if p.1 ≥ mm.2.1 then p else mm.2))
        (fun b x => by dsimp only; split_ifs <;> simp) (p0 :: rest) (p0, p0) with h | h
    · rw [h]; exact List.mem_cons_self p0 rest
    · exact h
  · rcases foldl_pick (fun mm : Point × Point => mm.2)
        (fun mm p => (if p.1 ≤ mm.1.1 then p else mm.1,
          if p.1 ≥ mm.2.1 then p else mm.2))
        (fun b x => by dsimp only; split_ifs <;> simp) (p0 :: rest) (p0, p0) with h | h
    · rw [h]; exact List.mem_cons_self p0 rest
    · exact h

theorem find_max_distance_mem (p0 : Point) (rest : List Point)
    (min_absis max_absis : Point) :
    quickhull.find_max_distance (p0 :: rest) min_absis max_absis ∈ p0 :: rest := by
  rw [quickhull.find_max_distance]
  rcases foldl_pick (fun b : Point × ℤ => b.1)
      (fun best p => if quickhull.calc_line_dist min_absis max_absis p > best.2
        then (p, quickhull.calc_line_dist min_absis max_absis p) else best)
      (fun b x => by dsimp only; split_ifs <;> simp) (p0 :: rest) (p0, 0) with h | h
  · rw [h]; exact List.mem_cons_self p0 rest
  · exact h

theorem quick_hull_left_subset :
    ∀ (fuel : ℕ) (pts : List Point) (min_absis max_absis : Point),
      quickhull.quick_hull_left fuel pts min_absis max_absis ⊆ pts := by
  intro fuel
  induction fuel with
  | zero => intro pts _ _ x hx; simp [quickhull.quick_hull_left] at hx
  | succ n ih =>
      intro pts minA maxA
      rw [quickhull.quick_hull_left]
      split_ifs with he
      · intro x hx; simp at hx
      · obtain ⟨p0, rest, rfl⟩ := List.exists_cons_of_ne_nil he
        intro x hx
        rcases List.mem_cons.mp hx with hx1 | hx2
        · rw [hx1]; exact find_max_distance_mem p0 rest minA maxA
        · rcases List.mem_append.mp hx2 with hx | hx
          · have h1 := ih _ _ _ hx
            have h2 := (List.mem_filter.mp h1).1
            exact removeFirst_subset _ _ h2
          · have h1 := ih _ _ _ hx
            have h2 := (List.mem_filter.mp h1).1
            exact removeFirst_subset _ _ h2

theorem quick_hull_right_subset :
    ∀ (fuel : ℕ) (pts : List Point) (min_absis max_absis : Point),
      quickhull.quick_hull_right fuel pts min_absis max_absis ⊆ pts := by
  intro fuel
  induction fuel with
  | zero => intro pts _ _ x hx; simp [quickhull.quick_hull_right] at hx
  | succ n ih =>
      intro pts minA maxA
      rw [quickhull.quick_hull_right]
      split_ifs with he
      · intro x hx; simp at hx
      · obtain ⟨p0, rest, rfl⟩ := List.exists_cons_of_ne_nil he
        intro x hx
        rcases List.mem_cons.mp hx with hx1 | hx2
        · rw [hx1]; exact find_max_distance_mem p0 rest minA maxA
        · rcases List.mem_append.mp hx2 with hx | hx
          · have h1 := ih _ _ _ hx
            have h2 := (List.mem_filter.mp h1).1
            exact removeFirst_subset _ _ h2
          · have h1 := ih _ _ _ hx
            have h2 := (List.mem_filter.mp h1).1
            exact removeFirst_subset _ _ h2

theorem hull_points_subset (fuel : ℕ) (pts : List Point) (hne : pts ≠ []) :
    quickhull.hull_points fuel pts ⊆ pts := by
  obtain ⟨p0, rest, rfl⟩ := List.exists_cons_of_ne_nil hne
  simp only [quickhull.hull_points]
  intro x hx
  rcases List.mem_cons.mp hx with hx1 | hx2
  · rw [hx1]; exact (find_min_and_max_mem p0 rest).1
  · rcases List.mem_cons.mp hx2 with hx1 | hx2
    · rw [hx1]; exact (find_min_and_max_mem p0 rest).2
    · rcases List.mem_append.mp hx2 with hx | hx
      · exact (List.mem_filter.mp (quick_hull_left_subset fuel _ _ _ hx)).1
      · exact (List.mem_filter.mp (quick_hull_right_subset fuel _ _ _ hx)).1

theorem toEdges_mem (l : List Point) (e : Point × Point)
    (h : e ∈ quickhull.toEdges l) : e.1 ∈ l ∧ e.2 ∈ l := by
  unfold quickhull.toEdges at h
  rcases List.mem_map.mp h with ⟨i, hi, hfe⟩
  have hilt := List.mem_range.mp hi
  rw [← hfe]
  constructor
  · exact getD_mem_of_lt _ hilt
  · by_cases hlast : i = l.length - 1
    · simp only [hlast, if_pos rfl]
      exact getD_mem_of_lt _ (by omega)
    · simp only [if_neg hlast]
      exact getD_mem_of_lt _ (by omega)

theorem sorted_hull_subset (fuel : ℕ) (pts : List Point) (hne : pts ≠ []) :
    quickhull.sorted_hull fuel pts ⊆ pts := by
  intro x hx
  simp only [quickhull.sorted_hull] at hx
  exact hull_points_subset fuel pts hne ((insSort_perm _ _).subset hx)

/-! ## QuickHull output shape: sorted vertices, cyclic edge list. -/

theorem angNotLt_trans {v w u : ℤ × ℤ} (h1 : ¬ angLt w v) (h2 : ¬ angLt u w) :
    ¬ angLt u v := by
  intro hc
  rcases angLt_trichotomy w v with h | h | h
  · exact h1 h
  · exact h2 (angLt_of_angLt_of_angEq hc (angEq_symm h))
  · exact h2 (angLt_trans hc h)

theorem toEdges_length (l : List Point) :
    (quickhull.toEdges l).length = l.length := by
  simp [quickhull.toEdges]

theorem toEdges_getElem (l : List Point) (i : ℕ) (h : i < l.length) :
    (quickhull.toEdges l)[i]? =
      some (l.getD i (0, 0), l.getD ((i + 1) % l.length) (0, 0)) := by
  unfold quickhull.toEdges
  rw [List.getElem?_map, List.getElem?_range h, Option.map_some']
  by_cases hlast : i = l.length - 1
  · rw [if_pos hlast]
    have hip : i + 1 = l.length := by omega
    rw [hip, Nat.mod_self]
  · rw [if_neg hlast]
    have hm : (i + 1) % l.length = i + 1 := Nat.mod_eq_of_lt (by omega)
    rw [hm]

/-- The centroid-angle order actually established by the sort (given the
hull-point count and coordinate sums). -/
def centroid_le (n sx sy : ℤ) (p q : Point) : Prop :=
  ¬ angLt (quickhull.key_vec n sx sy q) (quickhull.key_vec n sx sy p)

theorem sorted_hull_pairwise (fuel : ℕ) (pts : List Point) :
    (quickhull.sorted_hull fuel pts).Pairwise
      (centroid_le ((quickhull.hull_points fuel pts).length : ℤ)
        (((quickhull.hull_points fuel pts).map Prod.fst).sum)
        (((quickhull.hull_points fuel pts).map Prod.snd).sum)) := by
  simp only [quickhull.sorted_hull]
  refine insSort_pairwise ?_ ?_ ?_ _
  · intro a b hab
    exact of_decide_eq_false hab
  · intro a b hab
    exact angLt_asymm (of_decide_eq_true hab)
  · intro a b c h1 h2
    exact angNotLt_trans h1 h2

theorem hull_points_length (fuel : ℕ) (pts : List Point) :
    2 ≤ (quickhull.hull_points fuel pts).length := by
  simp only [quickhull.hull_points]
  simp

theorem sorted_hull_length (fuel : ℕ) (pts : List Point) :
    (quickhull.sorted_hull fuel pts).length =
      (quickhull.hull_points fuel pts).length := by
  simp only [quickhull.sorted_hull]
  exact (insSort_perm _ _).length_eq

theorem sorted_hull_ne_nil (fuel : ℕ) (pts : List Point) :
    quickhull.sorted_hull fuel pts ≠ [] := by
  intro hcon
  have h1 := sorted_hull_length fuel pts
  have h2 := hull_points_length fuel pts
  rw [hcon] at h1
  simp at h1
  omega

/-! ## Graham Scan on inputs of size at most 2. -/

theorem anchorOf_single (p : Point) : graham.anchorOf [p] = p := by
  simp [graham.anchorOf, graham.anchor_step]

theorem graham_scan_nil (o : List Point → ℕ) : graham_scan o [] = none := rfl

theorem quicksortF_short (anchor : Point) (o : List Point → ℕ) (fuel : ℕ)
    (a : List Point) (h : a.length ≤ 1) :
    graham.quicksortF anchor o fuel a = a := by
  cases fuel with
  | zero => rfl
  | succ n => rw [graham.quicksortF, if_pos h]

theorem graham_scan_single (o : List Point → ℕ) (p : Point) :
    graham_scan o [p] = none := by
  simp only [graham_scan]
  rw [quicksortF_short _ o _ _ (by simp), anchorOf_single]
  simp [removeFirst]

theorem graham_scan_pair (o : List Point → ℕ) (p q : Point) :
    graham_scan o [p, q] ≠ none ∧
      ((graham_scan o [p, q]).getD []).Perm [p, q] := by
  have hanch : graham.anchorOf [p, q] ∈ [p, q] := anchorOf_mem p [q]
  have hperm : (graham.quicksortF (graham.anchorOf [p, q]) o [p, q].length
      [p, q]).Perm [p, q] := quicksortF_perm _ o _ _
  have hanchL : graham.anchorOf [p, q] ∈ graham.quicksortF
      (graham.anchorOf [p, q]) o [p, q].length [p, q] :=
    hperm.mem_iff.mpr hanch
  have h1 := perm_cons_removeFirst _ _ hanchL
  have h2 := perm_cons_removeFirst _ _ hanch
  have hrf : (removeFirst (graham.anchorOf [p, q]) (graham.quicksortF
      (graham.anchorOf [p, q]) o [p, q].length [p, q])).Perm
      (removeFirst (graham.anchorOf [p, q]) [p, q]) :=
    (h1.symm.trans (hperm.trans h2)).cons_inv
  have hlen : (removeFirst (graham.anchorOf [p, q]) (graham.quicksortF
      (graham.anchorOf [p, q]) o [p, q].length [p, q])).length = 1 := by
    have ha := h1.length_eq
    have hb := hperm.length_eq
    simp only [List.length_cons, List.length_nil] at ha hb ⊢
    omega
  obtain ⟨s0, hs0⟩ := List.length_eq_one.mp hlen
  have hres : graham_scan o [p, q] = some [graham.anchorOf [p, q], s0] := by
    simp only [graham_scan]
    rw [hs0]
    rfl
  have hfinal : [p, q].Perm [graham.anchorOf [p, q], s0] := by
    rw [hs0] at hrf
    exact h2.trans ((hrf.symm.cons (graham.anchorOf [p, q])))
  constructor
  · rw [hres]; simp
  · rw [hres]
    exact hfinal.symm

end Convex_Hull

/-! ## The claims -/

/-- C1.  The five hull algorithms do NOT always agree on non-degenerate
input: on the four points `(0,0), (2,0), (1,0), (0,2)` (not all collinear),
`brute_force` returns the mid-edge collinear point `(1,0)` as a hull
vertex while `graham_scan` (any pivot choice — shown here for the constant
oracle) excludes it, so the two vertex sets differ.  The wrapping loop of
`brute_force` only replaces its candidate on a strictly counter-clockwise
point, so a collinear point on a hull edge can survive as the chosen
successor; `graham_scan` pops collinear triples (`det <= 0`). -/
theorem brute_force_graham_scan_disagree :
    Convex_Hull.brute_force 9 [(0, 0), (2, 0), (1, 0), (0, 2)] =
      some [(0, 0), (0, 2), (2, 0), (1, 0)] ∧
    Convex_Hull.graham_scan oracle0 [(0, 0), (2, 0), (1, 0), (0, 2)] =
      some [(0, 0), (2, 0), (0, 2)] ∧
    ((1, 0) : Point) ∈ [((0, 0) : Point), (0, 2), (2, 0), (1, 0)] ∧
    ((1, 0) : Point) ∉ [((0, 0) : Point), (2, 0), (0, 2)] := by
  refine ⟨by decide, by decide, by decide, by decide⟩

/-- C2 (counterexample).  The claim that `graham_scan`, `brute_force` and
`quickhull` never raise and return the trivial result on inputs of size
< 3 is false: `graham_scan` raises on a singleton (`quicksort` returns the
input list itself, the `del` empties it, and `sorted_pts[0]` fails —
modelled by `none`), and `brute_force` returns `[]`, not the input, on a
pair. -/
theorem degenerate_small_input_claim_fails :
    Convex_Hull.graham_scan oracle0 [(5, 5)] = none ∧
    Convex_Hull.brute_force 9 [(1, 1), (2, 2)] = some [] ∧
    Convex_Hull.brute_force 9 [(1, 1), (2, 2)] ≠
      some [((1, 1) : Point), (2, 2)] := by
  refine ⟨by decide, by decide, by decide⟩

/-- C2 (amended).  Actual small-input behaviour: `graham_scan` raises (is
`none`) on inputs of size 0 and 1 and returns the two points (anchor
first, i.e. up to order) on inputs of size 2; `brute_force` never raises
below size 3 but returns the empty list; `quickhull` returns the input
unchanged on sizes 0 and 1. -/
theorem degenerate_small_input_actual :
    (∀ o : List Point → ℕ, Convex_Hull.graham_scan o [] = none) ∧
    (∀ (o : List Point → ℕ) (p : Point), Convex_Hull.graham_scan o [p] = none) ∧
    (∀ (o : List Point → ℕ) (p q : Point),
      Convex_Hull.graham_scan o [p, q] ≠ none ∧
      ((Convex_Hull.graham_scan o [p, q]).getD []).Perm [p, q]) ∧
    (∀ (fuel : ℕ) (pts : List Point), pts.length < 3 →
      Convex_Hull.brute_force fuel pts = some []) ∧
    (∀ (fuel : ℕ) (pts : List Point), pts.length ≤ 1 →
      Convex_Hull.quickhull fuel pts = Sum.inl pts) := by
  refine ⟨Convex_Hull.graham_scan_nil, Convex_Hull.graham_scan_single,
    Convex_Hull.graham_scan_pair, ?_, ?_⟩
  · intro fuel pts h
    rw [Convex_Hull.brute_force, if_pos h]
  · intro fuel pts h
    rw [Convex_Hull.quickhull, if_pos h]

/-- C2 (witness for the amended statement). -/
theorem degenerate_small_input_actual_witness :
    Convex_Hull.brute_force 9 [(3, 3), (4, 4)] = some [] ∧
    Convex_Hull.quickhull 5 [(2, 2)] = Sum.inl [((2, 2) : Point)] :=
  ⟨degenerate_small_input_actual.2.2.2.1 9 [(3, 3), (4, 4)] (by decide),
   degenerate_small_input_actual.2.2.2.2 5 [(2, 2)] (by decide)⟩

/-- C3.  `jarvis_march_convex_hull` does not return a hull on every input
of 3 or more points: on the three collinear points `(1,0), (2,0), (0,0)`
(in this input order) its wrapping loop cycles between the pivots `(1,0)`
and `(2,0)` and never returns to the starting hull point `(0,0)`, so the
Python `while True` loop runs forever — for every amount of fuel the
embedded loop is still running. -/
theorem jarvis_march_diverges : ∀ fuel : ℕ,
    Convex_Hull.jarvis_march_convex_hull fuel Convex_Hull.jarvisLoopInput =
      Convex_Hull.HullResult.fuelOut := by
  intro fuel
  have hgo : Convex_Hull.jarvis_march.go Convex_Hull.jarvisLoopInput (0, 0)
      fuel (0, 0) [] = none := by
    cases fuel with
    | zero => rfl
    | succ n =>
        rw [Convex_Hull.jarvis_march.go]
        simp only [Convex_Hull.jarvis_sel_start]
        rw [if_neg (by decide)]
        exact (Convex_Hull.jarvis_go_cycle n).1 _
  have hmin : Convex_Hull.jarvis_march.minYX Convex_Hull.jarvisLoopInput =
      (0, 0) := by decide
  simp only [Convex_Hull.jarvis_march_convex_hull, hmin]
  rw [if_neg (by decide), hgo]


/-- C4.  On the all-collinear input `(0,0), (1,0), (2,0)` (size 3) the
algorithms do not all return the two extreme points `(0,0)` and `(2,0)`:
`jarvis_march_convex_hull` returns `[(0,0), (1,0)]`, missing the extreme
`(2,0)`, and `brute_force` returns all three points, including the
non-extreme midpoint `(1,0)`. -/
theorem collinear_extremes_violated :
    Convex_Hull.jarvis_march_convex_hull 9 [(0, 0), (1, 0), (2, 0)] =
      Convex_Hull.HullResult.out [(0, 0), (1, 0)] ∧
    Convex_Hull.brute_force 9 [(0, 0), (1, 0), (2, 0)] =
      some [(0, 0), (1, 0), (2, 0)] ∧
    ((2, 0) : Point) ∉ [((0, 0) : Point), (1, 0)] ∧
    ((1, 0) : Point) ∈ [((0, 0) : Point), (1, 0), (2, 0)] := by
  refine ⟨by decide, by decide, by decide, by decide⟩

/-- C5.  `line_sweep` returns `true` exactly when the two bounding boxes
overlap on both axes and both determinant products are strictly negative;
on the segments `(0,0)-(5,5)` and `(5,5)-(10,0)`, which touch only at the
shared endpoint `(5,5)`, it returns `false` while `do_intersect_ccw` and
`vecotr_cross_product` return `true`. -/
theorem line_sweep_characterisation :
    (∀ p1 p2 p3 p4 : Point,
      Line_Intersection.line_sweep p1 p2 p3 p4 = true ↔
        ((min p3.1 p4.1 ≤ max p1.1 p2.1 ∧ min p1.1 p2.1 ≤ max p3.1 p4.1) ∧
         (min p3.2 p4.2 ≤ max p1.2 p2.2 ∧ min p1.2 p2.2 ≤ max p3.2 p4.2) ∧
         Line_Intersection.calculate_determinant p1 p3 p4 *
           Line_Intersection.calculate_determinant p2 p3 p4 < 0 ∧
         Line_Intersection.calculate_determinant p3 p1 p2 *
           Line_Intersection.calculate_determinant p4 p1 p2 < 0)) ∧
    Line_Intersection.line_sweep (0, 0) (5, 5) (5, 5) (10, 0) = false ∧
    Line_Intersection.do_intersect_ccw (0, 0) (5, 5) (5, 5) (10, 0) = true ∧
    Line_Intersection.vecotr_cross_product (0, 0) (5, 5) (5, 5) (10, 0) = true := by
  refine ⟨?_, by decide, by decide, by decide⟩
  intro p1 p2 p3 p4
  unfold Line_Intersection.line_sweep
  split_ifs with h1 h2 h3
  · constructor
    · intro h; exact absurd h (by simp)
    · rintro ⟨⟨hA, hB⟩, _, _⟩
      rcases h1 with h1 | h1
      · exact absurd h1 (not_lt.mpr hA)
      · exact absurd h1 (not_lt.mpr hB)
  · constructor
    · intro h; exact absurd h (by simp)
    · rintro ⟨_, ⟨hA, hB⟩, _⟩
      rcases h2 with h2 | h2
      · exact absurd h2 (not_lt.mpr hA)
      · exact absurd h2 (not_lt.mpr hB)
  · constructor
    · intro _
      rcases not_or.mp h1 with ⟨hA, hB⟩
      rcases not_or.mp h2 with ⟨hC, hD⟩
      exact ⟨⟨not_lt.mp hA, not_lt.mp hB⟩, ⟨not_lt.mp hC, not_lt.mp hD⟩,
        h3.1, h3.2⟩
    · intro _; rfl
  · constructor
    · intro h; exact absurd h (by simp)
    · rintro ⟨_, _, hd1, hd2⟩
      exact absurd ⟨hd1, hd2⟩ h3

/-- C5 (witness): the characterisation applied to two properly crossing
segments. -/
theorem line_sweep_characterisation_witness :
    Line_Intersection.line_sweep (0, 0) (2, 2) (0, 2) (2, 0) = true :=
  (line_sweep_characterisation.1 (0, 0) (2, 2) (0, 2) (2, 0)).mpr (by decide)

/-- C6.  `do_intersect_ccw` returns `true` whenever the orientations of
`(A,B,C)` and `(A,B,D)` differ and those of `(C,D,A)` and `(C,D,B)`
differ; and when all four triples are collinear its verdict is exactly the
x-coordinate interval-overlap test (both axes are never consulted). -/
theorem ccw_intersect_characterisation (A B C D : Point) :
    ((Line_Intersection.ccw A B C ≠ Line_Intersection.ccw A B D ∧
      Line_Intersection.ccw C D A ≠ Line_Intersection.ccw C D B) →
      Line_Intersection.do_intersect_ccw A B C D = true) ∧
    ((Line_Intersection.ccw A B C = 0 ∧ Line_Intersection.ccw A B D = 0 ∧
      Line_Intersection.ccw C D A = 0 ∧ Line_Intersection.ccw C D B = 0) →
      (Line_Intersection.do_intersect_ccw A B C D = true ↔
        Line_Intersection.x_overlap A B C D)) := by
  constructor
  · intro h
    unfold Line_Intersection.do_intersect_ccw
    rw [if_pos h]
  · rintro ⟨h1, h2, h3, h4⟩
    unfold Line_Intersection.do_intersect_ccw
    rw [if_neg (by rw [h1, h2]; simp),
      if_pos ⟨by rw [h1, h2], by rw [h2, h3], h3⟩]
    exact decide_eq_true_iff

/-- C6 (witness): the general case applied to the endpoint-touching
segments of the spec's example 3. -/
theorem ccw_intersect_characterisation_witness :
    Line_Intersection.do_intersect_ccw (0, 0) (5, 5) (5, 5) (10, 0) = true :=
  (ccw_intersect_characterisation (0, 0) (5, 5) (5, 5) (10, 0)).1 (by decide)

/-- C7.  For inputs of size ≥ 2, `quickhull` returns the accumulated hull
points sorted by angle around their centroid (non-decreasing `atan2` key,
over the exact scaled centroid vectors), emitted as a cyclic edge list:
edge `i` is `(v i, v ((i+1) mod n))`, consecutive edges share their common
vertex, and the last edge closes back to the first vertex. -/
theorem quickhull_output_shape (fuel : ℕ) (pts : List Point)
    (h : 2 ≤ pts.length) :
    Convex_Hull.quickhull fuel pts =
      Sum.inr (Convex_Hull.quickhull.toEdges
        (Convex_Hull.quickhull.sorted_hull fuel pts)) ∧
    Convex_Hull.quickhull.sorted_hull fuel pts ≠ [] ∧
    (Convex_Hull.quickhull.sorted_hull fuel pts).Pairwise
      (Convex_Hull.centroid_le
        (((Convex_Hull.quickhull.hull_points fuel pts).length : ℤ))
        (((Convex_Hull.quickhull.hull_points fuel pts).map Prod.fst).sum)
        (((Convex_Hull.quickhull.hull_points fuel pts).map Prod.snd).sum)) ∧
    (Convex_Hull.quickhull.toEdges
      (Convex_Hull.quickhull.sorted_hull fuel pts)).length =
      (Convex_Hull.quickhull.sorted_hull fuel pts).length ∧
    (∀ i, i < (Convex_Hull.quickhull.sorted_hull fuel pts).length →
      (Convex_Hull.quickhull.toEdges
        (Convex_Hull.quickhull.sorted_hull fuel pts))[i]? =
        some ((Convex_Hull.quickhull.sorted_hull fuel pts).getD i (0, 0),
          (Convex_Hull.quickhull.sorted_hull fuel pts).getD
            ((i + 1) % (Convex_Hull.quickhull.sorted_hull fuel pts).length)
            (0, 0))) ∧
    (∀ i, i + 1 < (Convex_Hull.quickhull.sorted_hull fuel pts).length →
      ((Convex_Hull.quickhull.toEdges
        (Convex_Hull.quickhull.sorted_hull fuel pts))[i]?).map Prod.snd =
      ((Convex_Hull.quickhull.toEdges
        (Convex_Hull.quickhull.sorted_hull fuel pts))[i + 1]?).map Prod.fst) ∧
    ((Convex_Hull.quickhull.toEdges (Convex_Hull.quickhull.sorted_hull fuel
        pts))[(Convex_Hull.quickhull.sorted_hull fuel pts).length - 1]?).map
        Prod.snd =
      ((Convex_Hull.quickhull.toEdges
        (Convex_Hull.quickhull.sorted_hull fuel pts))[0]?).map Prod.fst := by
  have hne := Convex_Hull.sorted_hull_ne_nil fuel pts
  have hpos : 0 < (Convex_Hull.quickhull.sorted_hull fuel pts).length :=
    List.length_pos.mpr hne
  refine ⟨by rw [Convex_Hull.quickhull, if_neg (by omega)], hne,
    Convex_Hull.sorted_hull_pairwise fuel pts,
    Convex_Hull.toEdges_length _, ?_, ?_, ?_⟩
  · intro i hi
    exact Convex_Hull.toEdges_getElem _ i hi
  · intro i hi
    rw [Convex_Hull.toEdges_getElem _ i (by omega),
      Convex_Hull.toEdges_getElem _ (i + 1) hi]
    simp only [Option.map_some']
    rw [Nat.mod_eq_of_lt hi]
  · rw [Convex_Hull.toEdges_getElem _ _ (by omega),
      Convex_Hull.toEdges_getElem _ 0 hpos]
    simp only [Option.map_some']
    congr 1
    have : (Convex_Hull.quickhull.sorted_hull fuel pts).length - 1 + 1 =
        (Convex_Hull.quickhull.sorted_hull fuel pts).length := by omega
    rw [this, Nat.mod_self]

/-- C7 (witness): the edge-list equation at a concrete four-point input. -/
theorem quickhull_output_shape_witness :
    Convex_Hull.quickhull 9 [(0, 0), (4, 0), (0, 4), (1, 1)] =
      Sum.inr (Convex_Hull.quickhull.toEdges
        (Convex_Hull.quickhull.sorted_hull 9 [(0, 0), (4, 0), (0, 4), (1, 1)])) :=
  (quickhull_output_shape 9 [(0, 0), (4, 0), (0, 4), (1, 1)] (by decide)).1

/-- C8.  Whenever any of the five operations returns normally, every
returned vertex (for `quickhull`, every edge endpoint) is an element of
the input list: no synthesized points. -/
theorem hull_vertices_from_input (pts : List Point) :
    (∀ (o : List Point → ℕ) (res : List Point),
      Convex_Hull.graham_scan o pts = some res → res ⊆ pts) ∧
    (∀ (fuel : ℕ) (res : List Point),
      Convex_Hull.jarvis_march_convex_hull fuel pts =
        Convex_Hull.HullResult.out res → res ⊆ pts) ∧
    (∀ (fuel : ℕ) (res : List Point),
      Convex_Hull.quickhull fuel pts = Sum.inl res → res ⊆ pts) ∧
    (∀ (fuel : ℕ) (edges : List (Point × Point)),
      Convex_Hull.quickhull fuel pts = Sum.inr edges →
      ∀ e ∈ edges, e.1 ∈ pts ∧ e.2 ∈ pts) ∧
    (∀ (fuel : ℕ) (res : List Point),
      Convex_Hull.brute_force fuel pts = some res → res ⊆ pts) ∧
    (∀ res : List Point,
      Convex_Hull.andrews_monotone_chain pts = some res → res ⊆ pts) := by
  refine ⟨fun o res h => Convex_Hull.graham_scan_subset o pts res h,
    fun fuel res h => Convex_Hull.jarvis_march_subset fuel pts res h,
    ?_, ?_,
    fun fuel res h => Convex_Hull.brute_force_subset fuel pts res h,
    fun res h => Convex_Hull.andrews_monotone_chain_subset pts res h⟩
  · intro fuel res h
    rw [Convex_Hull.quickhull] at h
    split_ifs at h with hle
    have hpr : pts = res := by injection h
    rw [← hpr]
    exact fun x hx => hx
  · intro fuel edges h
    rw [Convex_Hull.quickhull] at h
    split_ifs at h with hle
    have hedges : Convex_Hull.quickhull.toEdges
        (Convex_Hull.quickhull.sorted_hull fuel pts) = edges := by
      injection h
    intro e he
    rw [← hedges] at he
    have hml := Convex_Hull.toEdges_mem _ e he
    have hsub : Convex_Hull.quickhull.sorted_hull fuel pts ⊆ pts :=
      Convex_Hull.sorted_hull_subset fuel pts (by
        intro hcon
        rw [hcon] at hle
        simp at hle)
    exact ⟨hsub hml.1, hsub hml.2⟩

/-- C8 (witness): the Monotone Chain clause at a concrete input whose hull
omits the interior point `(1,1)`. -/
theorem hull_vertices_from_input_witness :
    [((0 : ℤ), (0 : ℤ)), (3, 0), (0, 3)] ⊆
      [((0 : ℤ), (0 : ℤ)), (3, 0), (0, 3), (1, 1)] :=
  (hull_vertices_from_input [(0, 0), (3, 0), (0, 3), (1, 1)]).2.2.2.2.2
    [(0, 0), (3, 0), (0, 3)] (by decide)

/-- C9.  `graham_scan` is deterministic despite its randomized quicksort
pivot: for any two pivot oracles (hence any two runs of the Python code)
the entire result coincides — the quicksort output is a sorted permutation
under the antisymmetric (angle, squared-distance) order, hence unique.
The other four algorithms take no randomness in the embedding (they are
pure functions of the input and fuel), so two runs are the same
application and their determinism is definitional. -/
theorem graham_scan_oracle_independent (o₁ o₂ : List Point → ℕ)
    (pts : List Point) :
    Convex_Hull.graham_scan o₁ pts = Convex_Hull.graham_scan o₂ pts := by
  cases pts with
  | nil => rfl
  | cons p rest =>
      simp only [Convex_Hull.graham_scan]
      rw [Convex_Hull.quicksortF_det (Convex_Hull.graham.anchorOf (p :: rest))
        o₁ o₂ (p :: rest)]

/-- C9 (witness): two different concrete oracles at a concrete input. -/
theorem graham_scan_oracle_independent_witness :
    Convex_Hull.graham_scan oracle0 [(0, 0), (2, 0), (1, 0), (0, 2)] =
      Convex_Hull.graham_scan oracle1 [(0, 0), (2, 0), (1, 0), (0, 2)] :=
  graham_scan_oracle_independent oracle0 oracle1 [(0, 0), (2, 0), (1, 0), (0, 2)]

/-- C10.  For inputs of size ≥ 2 every algorithm leaves the caller's list
unchanged: all sorting/removal happens on freshly built lists, and the one
aliasing path (`quicksort` returning its argument object, whose anchor the
`del` then removes) requires `len <= 1`. -/
theorem input_list_unchanged (pts : List Point) (h : 2 ≤ pts.length) :
    Convex_Hull.graham_scan_inputAfter pts = pts ∧
    Convex_Hull.jarvis_march_inputAfter pts = pts ∧
    Convex_Hull.quickhull_inputAfter pts = pts ∧
    Convex_Hull.brute_force_inputAfter pts = pts ∧
    Convex_Hull.andrews_monotone_chain_inputAfter pts = pts := by
  refine ⟨?_, rfl, rfl, rfl, rfl⟩
  match pts, h with
  | p :: rest, hh =>
      simp only [Convex_Hull.graham_scan_inputAfter]
      rw [if_neg]
      simp only [Convex_Hull.quicksort_aliases]
      intro hcon
      have h2 := of_decide_eq_true hcon
      simp only [List.length_cons] at h2 hh
      omega

/-- C10 (witness). -/
theorem input_list_unchanged_witness :
    Convex_Hull.graham_scan_inputAfter [(0, 0), (1, 1)] =
      [((0, 0) : Point), (1, 1)] ∧
    Convex_Hull.jarvis_march_inputAfter [(0, 0), (1, 1)] =
      [((0, 0) : Point), (1, 1)] ∧
    Convex_Hull.quickhull_inputAfter [(0, 0), (1, 1)] =
      [((0, 0) : Point), (1, 1)] ∧
    Convex_Hull.brute_force_inputAfter [(0, 0), (1, 1)] =
      [((0, 0) : Point), (1, 1)] ∧
    Convex_Hull.andrews_monotone_chain_inputAfter [(0, 0), (1, 1)] =
      [((0, 0) : Point), (1, 1)] :=
  input_list_unchanged [(0, 0), (1, 1)] (by decide)
